import Mathlib

/-!
Verification of the auto-version action core (src/src/main.ts, first revision
unless noted otherwise).  The file embeds, as executable Lean functions over
`List Char` / `String`:

* the version-grammar regular expressions `reSemVerFormat`,
  `reSemVerFormatBasic` and `reSemVerChangeLogEntry`,
* the classifier `getChangeTypeFromString` together with the `lastIndex`
  state that the global-flag regexes `reMajor` / `reMinor` / `rePatch`
  retain between calls,
* `incrementSemVer` (both revisions of the file), and
* the pure core of `updateChangeLog` (the changelog text transformation,
  with the date passed as a parameter since the source reads the clock).

JavaScript strings are modelled as lists of characters; all concrete inputs
used below are ASCII, where the two index spaces coincide.  `parseInt`
followed by `toString` on a digit string is modelled with exact natural
number arithmetic (the specification explicitly leaves numeric overflow
implementation-defined).
-/

namespace AutoVersion

/-- The `SemVerType` enum from the source. -/
inductive SemVerType where
  | MAJOR
  | MINOR
  | PATCH
  | UNKNOWN
deriving DecidableEq, Repr

/-- Character class `[0-9A-Za-z-]` used by the prerelease and build parts of
`reSemVerFormat` and `reSemVerChangeLogEntry`. -/
def identChar (c : Char) : Bool :=
  c.isDigit || c.isUpper || c.isLower || c = '-'

/-- A character of the prerelease region: `[0-9A-Za-z-]` or the literal dot
separator. -/
def preChar (c : Char) : Bool :=
  identChar c || c = '.'

/-- ASCII subset of the JavaScript `\s` class (all characters relevant to the
trigger patterns). -/
def wsChar (c : Char) : Bool :=
  c = ' ' || c = '\t' || c = '\n' || c = '\x0d' || c = '\x0b' || c = '\x0c'

/-- JavaScript line terminators, at which the multiline anchor `^` of
`reSemVerChangeLogEntry` matches. -/
def lineTerm (c : Char) : Bool :=
  c = '\n' || c = '\x0d' || c = Char.ofNat 0x2028 || c = Char.ofNat 0x2029

/-- The maximal digit run at the front of `cs` (the greedy `[0-9]+`). -/
def digitRun (cs : List Char) : List Char :=
  cs.takeWhile Char.isDigit

/-- The prerelease chunk: maximal run of `[0-9A-Za-z-.]` characters. -/
def preChunk (cs : List Char) : List Char :=
  cs.takeWhile preChar

/-- Split a character list at every dot, the model of JavaScript
`str.split(".")` for the inputs reachable in the source. -/
def splitDots : List Char → List (List Char)
  | [] => [[]]
  | c :: rest =>
    if c = '.' then [] :: splitDots rest
    else
      match splitDots rest with
      | [] => [[c]]
      | h :: t => (c :: h) :: t

/-- Rejoin dot-separated chunks, the model of `arr.join(".")`. -/
def joinDots : List (List Char) → List Char
  | [] => []
  | [a] => a
  | a :: rest => a ++ '.' :: joinDots rest

/-- The prerelease grammar `[0-9A-Za-z-]+(?:\.[0-9A-Za-z-]+)*` applied to a
chunk already known to consist of `[0-9A-Za-z-.]` characters: every
dot-separated part must be nonempty. -/
def preOk (cs : List Char) : Bool :=
  (splitDots cs).all (fun p => !p.isEmpty)

/-- After the optional prerelease of `reSemVerFormat`: either the string ends,
or `+` introduces a nonempty `[0-9A-Za-z-]+` build chunk that runs to the
end. -/
def buildThenEnd : List Char → Bool
  | [] => true
  | '+' :: r => !r.isEmpty && r.all identChar
  | _ => false

/-- The suffix region of `reSemVerFormat` after the numeric triple:
`(?:-([0-9A-Za-z-]+(?:\.[0-9A-Za-z-]+)*))?(?:\+[0-9A-Za-z-]+)?$`. -/
def suffixOk : List Char → Bool
  | [] => true
  | '-' :: rest => preOk (preChunk rest) && buildThenEnd (rest.dropWhile preChar)
  | '+' :: rest => !rest.isEmpty && rest.all identChar
  | _ => false

/-- Decompose `cs` as `d1 ++ "." ++ d2 ++ "." ++ d3 ++ rest` where the `di`
are the greedy nonempty digit runs of `^([0-9]+)\.([0-9]+)\.([0-9]+)`. -/
def semVerParts (cs : List Char) : Option (List Char × List Char × List Char × List Char) :=
  match cs.dropWhile Char.isDigit with
  | '.' :: r1 =>
    match r1.dropWhile Char.isDigit with
    | '.' :: r2 =>
      if (digitRun cs).isEmpty || (digitRun r1).isEmpty || (digitRun r2).isEmpty then none
      else some (digitRun cs, digitRun r1, digitRun r2, r2.dropWhile Char.isDigit)
    | _ => none
  | _ => none

/-- `reSemVerFormat.test`, on the character list. -/
def isSemVerL (cs : List Char) : Bool :=
  match semVerParts cs with
  | some (_, _, _, rest) => suffixOk rest
  | none => false

/-- `isSemVer` from the source: `reSemVerFormat.test(version)`. -/
def isSemVer (version : String) : Bool :=
  isSemVerL version.data

/-! ### `reSemVerFormatBasic` and `incrementSemVer`

`reSemVerFormatBasic = /^[0-9]+.[0-9]+.[0-9]+/` is written with unescaped
dots, so the two separators are wildcards (any character except a line
terminator).  `exec` performs greedy matching with backtracking: each
`[0-9]+` first tries its maximal run and shrinks on failure.  `tryLens n f`
tries `f` at `n, n-1, …, 1` and returns the first success, which is exactly
that order of attempts. -/

/-- Try a continuation at decreasing digit-run lengths `n, n-1, …, 1`. -/
def tryLens : Nat → (Nat → Option Nat) → Option Nat
  | 0, _ => none
  | k + 1, f =>
    match f (k + 1) with
    | some r => some r
    | none => tryLens k f

/-- Final `[0-9]+` of `reSemVerFormatBasic`: greedy, nothing follows. -/
def matchDigits (cs : List Char) : Option Nat :=
  if (digitRun cs).isEmpty then none else some (digitRun cs).length

/-- One `[0-9]+` followed by a wildcard `.` followed by the rest of the
pattern; returns the total number of characters consumed. -/
def matchSeg (next : List Char → Option Nat) (cs : List Char) : Option Nat :=
  tryLens (digitRun cs).length fun k =>
    match cs.drop k with
    | [] => none
    | c :: r => if lineTerm c then none else (next r).map fun n => k + 1 + n

/-- `reSemVerFormatBasic.exec(version)`: the matched substring, if any. -/
def basicExec (cs : List Char) : Option (List Char) :=
  (matchSeg (matchSeg matchDigits) cs).map cs.take

/-- Decimal value of a digit string; models `parseInt` on the digit strings
reachable in the source (exact arithmetic, see the header note). -/
def parseIntNat (cs : List Char) : Nat :=
  cs.foldl (fun a c => a * 10 + (c.toNat - 48)) 0

/-- The decimal digit characters. -/
def digitChar : Nat → Char
  | 0 => '0'
  | 1 => '1'
  | 2 => '2'
  | 3 => '3'
  | 4 => '4'
  | 5 => '5'
  | 6 => '6'
  | 7 => '7'
  | 8 => '8'
  | _ => '9'

/-- Fuel-driven digit expansion; the fuel is only a structural-recursion
device and `toDecimal` always supplies enough of it. -/
def toDecimalAux : Nat → Nat → List Char
  | 0, n => [digitChar (n % 10)]
  | fuel + 1, n =>
    if n < 10 then [digitChar n]
    else toDecimalAux fuel (n / 10) ++ [digitChar (n % 10)]

/-- Decimal rendering of a natural number; models `Number.prototype.toString`
for the values reachable in the source. -/
def toDecimal (n : Nat) : List Char := toDecimalAux n n

/-- `incrementStrNum` from the source: `(parseInt(num) + 1).toString()`. -/
def incrementStrNum (num : List Char) : List Char :=
  toDecimal (parseIntNat num + 1)

/-- The `switch (semVerType)` of the first revision of `incrementSemVer`:
MAJOR resets minor and patch, MINOR resets patch, UNKNOWN throws `"ERROR"`. -/
def bumpArr (arr : List (List Char)) : SemVerType → Except String (List (List Char))
  | .MAJOR => .ok (((arr.set 0 (incrementStrNum (arr.getD 0 []))).set 1 ['0']).set 2 ['0'])
  | .MINOR => .ok ((arr.set 1 (incrementStrNum (arr.getD 1 []))).set 2 ['0'])
  | .PATCH => .ok (arr.set 2 (incrementStrNum (arr.getD 2 [])))
  | .UNKNOWN => .error "ERROR"

/-- The `switch` of the second revision of `incrementSemVer` (lines 397-409):
no component is reset to zero. -/
def bumpArr2 (arr : List (List Char)) : SemVerType → Except String (List (List Char))
  | .MAJOR => .ok (arr.set 0 (incrementStrNum (arr.getD 0 [])))
  | .MINOR => .ok (arr.set 1 (incrementStrNum (arr.getD 1 [])))
  | .PATCH => .ok (arr.set 2 (incrementStrNum (arr.getD 2 [])))
  | .UNKNOWN => .error "ERROR"

/-- `leadsWith pat s` is true when `pat` is an initial segment of `s`. -/
def leadsWith : List Char → List Char → Bool
  | [], _ => true
  | _ :: _, [] => false
  | a :: as, b :: bs => a = b && leadsWith as bs

/-- Index of the first occurrence of `pat` in `s`, the model of
`String.prototype.indexOf`. -/
def findSubstrIdx (s pat : List Char) : Option Nat :=
  go s 0
where
  go : List Char → Nat → Option Nat
    | s, i =>
      if leadsWith pat s then some i
      else
        match s with
        | [] => none
        | _ :: r => go r (i + 1)

/-- `String.prototype.replace` with a plain string pattern: replace the first
occurrence only. -/
def replaceFirst (s pat rep : List Char) : List Char :=
  match findSubstrIdx s pat with
  | some i => s.take i ++ rep ++ s.drop (i + pat.length)
  | none => s

/-- `incrementSemVer` (first revision, lines 125-149).  Throwing is modelled
with `Except.error`; the non-null assertion `numberPart!` failing would be a
runtime `TypeError`, also modelled as an error (it is unreachable once
`isSemVer` has passed). -/
def incrementSemVer (version : String) (semVerType : SemVerType) : Except String String :=
  if isSemVer version = false then
    .error ("Version " ++ version ++ " does not follow Semantic Versioning pattern")
  else
    match basicExec version.data with
    | none => .error "TypeError: numberPart is null"
    | some numberPart =>
      match bumpArr (splitDots numberPart) semVerType with
      | .error e => .error e
      | .ok arr => .ok (String.mk (replaceFirst version.data numberPart (joinDots arr)))

/-- `incrementSemVer` (second revision, lines 390-411): identical except for
the non-resetting `switch`. -/
def incrementSemVer2 (version : String) (semVerType : SemVerType) : Except String String :=
  if isSemVer version = false then
    .error ("Version " ++ version ++ " does not follow Semantic Versioning pattern")
  else
    match basicExec version.data with
    | none => .error "TypeError: numberPart is null"
    | some numberPart =>
      match bumpArr2 (splitDots numberPart) semVerType with
      | .error e => .error e
      | .ok arr => .ok (String.mk (replaceFirst version.data numberPart (joinDots arr)))

/-! ### The trigger-pattern classifier

`reMajor = /#major|\[\s?major\s?\]/gi` (and likewise `reMinor`, `rePatch`)
carry the `g` flag, so each `RegExp.prototype.test` call starts searching at
the regex object's `lastIndex`, sets `lastIndex` past the match on success
and resets it to `0` on failure.  The three `lastIndex` fields are the only
mutable state of the classifier and are modelled explicitly. -/

/-- Case-insensitive ASCII character comparison (the `i` flag). -/
def eqCI (a b : Char) : Bool :=
  a = b || (a.isUpper && b.toNat = a.toNat + 32) || (b.isUpper && a.toNat = b.toNat + 32)

/-- Strip `word` (case-insensitively) from the front of `s`. -/
def stripCI : List Char → List Char → Option (List Char)
  | [], s => some s
  | _ :: _, [] => none
  | a :: as, b :: bs => if eqCI a b then stripCI as bs else none

/-- Length of a match of `#word|\[\s?word\s?\]` starting at the head of `s`,
if any.  The first alternative is tried first, as in the source pattern. -/
def tagMatchLenAt (word s : List Char) : Option Nat :=
  match stripCI ('#' :: word) s with
  | some _ => some (word.length + 1)
  | none =>
    match s with
    | '[' :: r1 =>
      let ws1 : Nat × List Char :=
        match r1 with
        | c :: r => if wsChar c then (1, r) else (0, c :: r)
        | [] => (0, [])
      match stripCI word ws1.2 with
      | some r2 =>
        let ws2 : Nat × List Char :=
          match r2 with
          | c :: r => if wsChar c then (1, r) else (0, c :: r)
          | [] => (0, [])
        match ws2.2 with
        | ']' :: _ => some (1 + ws1.1 + word.length + ws2.1 + 1)
        | _ => none
      | none => none
    | _ => none

/-- First match of the tag pattern at a position `≥ L`, as
`(position, length)`. -/
def tagSearchFrom (word s : List Char) (L : Nat) : Option (Nat × Nat) :=
  go (s.drop L) L
where
  go : List Char → Nat → Option (Nat × Nat)
    | s, i =>
      match tagMatchLenAt word s with
      | some len => some (i, len)
      | none =>
        match s with
        | [] => none
        | _ :: r => go r (i + 1)

/-- `RegExp.prototype.test` for a `g`-flag regex: search from `lastIndex`,
return the success flag and the new `lastIndex`. -/
def tagTest (word s : List Char) (lastIndex : Nat) : Bool × Nat :=
  match tagSearchFrom word s lastIndex with
  | some (i, len) => (true, i + len)
  | none => (false, 0)

/-- The retained `lastIndex` values of `reMajor`, `reMinor` and `rePatch`. -/
structure MatcherState where
  majorIdx : Nat
  minorIdx : Nat
  patchIdx : Nat
deriving DecidableEq, Repr

/-- The matcher state when the module is first loaded. -/
def initState : MatcherState := ⟨0, 0, 0⟩

def wordMajor : List Char := ['m', 'a', 'j', 'o', 'r']
def wordMinor : List Char := ['m', 'i', 'n', 'o', 'r']
def wordPatch : List Char := ['p', 'a', 't', 'c', 'h']

/-- The error message thrown by the first revision of
`getChangeTypeFromString` when no pattern matches. -/
def noTypeMsg (str : String) : String :=
  str ++ " does not specify a Semantic Version type. Select one of these change types: MAJOR, MINOR or PATCH"

/-- `getChangeTypeFromString` (first revision, lines 106-119) together with
the matcher state it reads and updates.  On no match it throws. -/
def getChangeTypeFromStringS (str : String) (st : MatcherState) :
    Except String SemVerType × MatcherState :=
  let tMaj := tagTest wordMajor str.data st.majorIdx
  if tMaj.1 then (.ok .MAJOR, { st with majorIdx := tMaj.2 })
  else
    let st1 := { st with majorIdx := tMaj.2 }
    let tMin := tagTest wordMinor str.data st.minorIdx
    if tMin.1 then (.ok .MINOR, { st1 with minorIdx := tMin.2 })
    else
      let st2 := { st1 with minorIdx := tMin.2 }
      let tPat := tagTest wordPatch str.data st.patchIdx
      if tPat.1 then (.ok .PATCH, { st2 with patchIdx := tPat.2 })
      else (.error (noTypeMsg str), { st2 with patchIdx := tPat.2 })

/-- `getChangeTypeFromString` (second revision, lines 378-384): identical
matching, but returns `UNKNOWN` instead of throwing. -/
def getChangeTypeFromString2S (str : String) (st : MatcherState) :
    SemVerType × MatcherState :=
  let tMaj := tagTest wordMajor str.data st.majorIdx
  if tMaj.1 then (.MAJOR, { st with majorIdx := tMaj.2 })
  else
    let st1 := { st with majorIdx := tMaj.2 }
    let tMin := tagTest wordMinor str.data st.minorIdx
    if tMin.1 then (.MINOR, { st1 with minorIdx := tMin.2 })
    else
      let st2 := { st1 with minorIdx := tMin.2 }
      let tPat := tagTest wordPatch str.data st.patchIdx
      if tPat.1 then (.PATCH, { st2 with patchIdx := tPat.2 })
      else (.UNKNOWN, { st2 with patchIdx := tPat.2 })

/-- A single call to the first-revision classifier from freshly loaded
matchers. -/
def getChangeTypeFromString (str : String) : Except String SemVerType :=
  (getChangeTypeFromStringS str initState).1

/-- A single call to the second-revision classifier from freshly loaded
matchers. -/
def getChangeTypeFromString2 (str : String) : SemVerType :=
  (getChangeTypeFromString2S str initState).1

/-- No trigger pattern matches anywhere in the text. -/
def noTagMatches (str : String) : Bool :=
  (tagSearchFrom wordMajor str.data 0).isNone &&
  (tagSearchFrom wordMinor str.data 0).isNone &&
  (tagSearchFrom wordPatch str.data 0).isNone

/-! ### `reSemVerChangeLogEntry` and `updateChangeLog`

`reSemVerChangeLogEntry = /^\#\#\s\[(triple)(-prerelease)?(\+build)?\]/m`.
`content.search(re)` returns the first position that is a line start (the
multiline `^`) and at which the body of the pattern matches. -/

/-- Build part inside the heading brackets: either the closing `]` directly,
or `+`, a nonempty `[0-9A-Za-z-]+` chunk, then `]`.  Returns the number of
characters consumed including the `]`. -/
def buildThenBracket : List Char → Option Nat
  | ']' :: _ => some 1
  | '+' :: r =>
    if (r.takeWhile identChar).isEmpty then none
    else
      match r.dropWhile identChar with
      | ']' :: _ => some (1 + (r.takeWhile identChar).length + 1)
      | _ => none
  | _ => none

/-- After the numeric triple inside the heading brackets: optional
`-prerelease`, optional `+build`, then `]`.  Returns the characters consumed
including the `]`. -/
def afterTripleLen : List Char → Option Nat
  | ']' :: _ => some 1
  | '-' :: rest =>
    if preOk (preChunk rest) then
      (buildThenBracket (rest.dropWhile preChar)).map (1 + (preChunk rest).length + ·)
    else none
  | '+' :: r => buildThenBracket ('+' :: r)
  | _ => none

/-- Characters consumed by the bracket body `(triple)(suffix)]` of the
heading pattern, starting right after `[`. -/
def bracketLen (cs : List Char) : Option Nat :=
  match semVerParts cs with
  | some (d1, d2, d3, rest) =>
    (afterTripleLen rest).map (d1.length + 1 + d2.length + 1 + d3.length + ·)
  | none => none

/-- Length of a match of `\#\#\s\[(triple)(suffix)\]` starting at the head of
`cs`, if any. -/
def entryLenFrom (cs : List Char) : Option Nat :=
  match cs with
  | '#' :: '#' :: c :: '[' :: rest =>
    if wsChar c then (bracketLen rest).map (4 + ·) else none
  | _ => none

/-- `content.search(reSemVerChangeLogEntry)`: scan every position with its
line-start flag; the multiline `^` admits position 0 and any position right
after a line terminator. -/
def searchEntryGo : List Char → Nat → Bool → Option Nat
  | cs, i, atLS =>
    if atLS && (entryLenFrom cs).isSome then some i
    else
      match cs with
      | [] => none
      | c :: rest => searchEntryGo rest (i + 1) (lineTerm c)

/-- First heading-match position in the document, or `none` (the source's
`latestEntryIndex`, with `-1` rendered as `none`). -/
def searchEntryL (cs : List Char) : Option Nat :=
  searchEntryGo cs 0 true

/-- The new changelog block
`## [version] - date\n\n msg \n` of the first revision of `updateChangeLog`
(line 192), with the date a parameter: the source fills it from the clock
via `getCurrentDate`. -/
def mkNewEntry (version date msg : String) : String :=
  "## [" ++ version ++ "] - " ++ date ++ "\n\n" ++ msg ++ "\n"

/-- The pure text transformation of `updateChangeLog` (first revision, lines
191-200): splice the new block in front of the first existing heading, or
append it after the whole content behind a single newline. -/
def updateChangeLog (content version date msg : String) : String :=
  let newEntry := (mkNewEntry version date msg).data
  match searchEntryL content.data with
  | some i => String.mk (content.data.take i ++ newEntry ++ '\n' :: content.data.drop i)
  | none => String.mk (content.data ++ '\n' :: newEntry)

/-- Number of positions of `s` at which `pat` occurs as a contiguous
substring. -/
def countOcc (pat : List Char) : List Char → Nat
  | [] => if leadsWith pat [] then 1 else 0
  | c :: r => (if leadsWith pat (c :: r) then 1 else 0) + countOcc pat r

/-! ### Generic helper lemmas about `takeWhile`, `dropWhile` and runs -/

/-- The head of `l` fails the predicate `p` (vacuously for `[]`). -/
def headFails (p : Char → Bool) : List Char → Prop
  | [] => True
  | c :: _ => p c = false

theorem headFails_dropWhile (p : Char → Bool) (l : List Char) :
    headFails p (l.dropWhile p) := by
  induction l with
  | nil => trivial
  | cons c r ih =>
    by_cases h : p c
    · simpa [List.dropWhile, h] using ih
    · simp only [List.dropWhile, h]
      exact Bool.eq_false_iff.mpr h

theorem takeWhile_run {p : Char → Bool} {d rest : List Char}
    (hd : ∀ c ∈ d, p c = true) (hr : headFails p rest) :
    (d ++ rest).takeWhile p = d := by
  induction d with
  | nil =>
    cases rest with
    | nil => rfl
    | cons c r =>
      have hc : p c = false := hr
      simp [List.takeWhile, hc]
  | cons c d' ih =>
    have hc : p c = true := hd c (List.mem_cons_self c d')
    have := ih (fun x hx => hd x (List.mem_cons_of_mem c hx))
    simp [List.takeWhile, hc, this]

theorem dropWhile_run {p : Char → Bool} {d rest : List Char}
    (hd : ∀ c ∈ d, p c = true) (hr : headFails p rest) :
    (d ++ rest).dropWhile p = rest := by
  induction d with
  | nil =>
    cases rest with
    | nil => rfl
    | cons c r =>
      have hc : p c = false := hr
      simp [List.dropWhile, hc]
  | cons c d' ih =>
    have hc : p c = true := hd c (List.mem_cons_self c d')
    have := ih (fun x hx => hd x (List.mem_cons_of_mem c hx))
    simp [List.dropWhile, hc, this]

theorem takeWhile_all {p : Char → Bool} {d : List Char}
    (hd : ∀ c ∈ d, p c = true) : d.takeWhile p = d := by
  simpa using @takeWhile_run p d [] hd trivial

theorem mem_takeWhile {p : Char → Bool} {l : List Char} {c : Char}
    (h : c ∈ l.takeWhile p) : p c = true :=
  List.mem_takeWhile_imp h

/-! ### Characterization of `semVerParts` -/

/-- The canonical decomposed shape of a string accepted by the triple part of
`reSemVerFormat`. -/
def PartsShape (cs d1 d2 d3 rest : List Char) : Prop :=
  cs = d1 ++ '.' :: (d2 ++ '.' :: (d3 ++ rest)) ∧
  d1 ≠ [] ∧ d2 ≠ [] ∧ d3 ≠ [] ∧
  (∀ c ∈ d1, c.isDigit = true) ∧ (∀ c ∈ d2, c.isDigit = true) ∧
  (∀ c ∈ d3, c.isDigit = true) ∧ headFails Char.isDigit rest

theorem digit_not_dot {c : Char} (h : c.isDigit = true) : ¬ c = '.' := by
  intro hc; subst hc; simp at h

theorem semVerParts_sound {cs d1 d2 d3 rest : List Char}
    (h : semVerParts cs = some (d1, d2, d3, rest)) :
    PartsShape cs d1 d2 d3 rest := by
  unfold semVerParts at h
  split at h
  case h_2 => exact Option.noConfusion h
  next r1 hsplit =>
    split at h
    case h_2 => exact Option.noConfusion h
    next r2 hsplit2 =>
      split at h
      · exact Option.noConfusion h
      · next hemp =>
        rw [Option.some_inj] at h
        injection h with h1 h
        injection h with h2 h
        injection h with h3 h4
        simp only [Bool.or_eq_true, not_or, List.isEmpty_iff] at hemp
        obtain ⟨⟨he1, he2⟩, he3⟩ := hemp
        subst h1; subst h2; subst h3; subst h4
        refine ⟨?_, by simpa [digitRun] using he1, by simpa [digitRun] using he2,
          by simpa [digitRun] using he3, fun c hc => mem_takeWhile hc,
          fun c hc => mem_takeWhile hc, fun c hc => mem_takeWhile hc,
          headFails_dropWhile _ _⟩
        conv_lhs => rw [← List.takeWhile_append_dropWhile Char.isDigit cs]
        rw [hsplit]
        simp only [digitRun, List.cons_append, List.append_cancel_left_eq, List.cons.injEq,
          true_and]
        conv_lhs => rw [← List.takeWhile_append_dropWhile Char.isDigit r1]
        rw [hsplit2]
        simp only [List.cons_append, List.append_cancel_left_eq, List.cons.injEq, true_and]
        conv_lhs => rw [← List.takeWhile_append_dropWhile Char.isDigit r2]

theorem semVerParts_complete {cs d1 d2 d3 rest : List Char}
    (h : PartsShape cs d1 d2 d3 rest) :
    semVerParts cs = some (d1, d2, d3, rest) := by
  obtain ⟨hcs, hn1, hn2, hn3, hd1, hd2, hd3, hrest⟩ := h
  have hdot1 : headFails Char.isDigit ('.' :: (d2 ++ '.' :: (d3 ++ rest))) := by
    show Char.isDigit '.' = false; decide
  have hdot2 : headFails Char.isDigit ('.' :: (d3 ++ rest)) := by
    show Char.isDigit '.' = false; decide
  have e1 : cs.dropWhile Char.isDigit = '.' :: (d2 ++ '.' :: (d3 ++ rest)) := by
    rw [hcs]; exact dropWhile_run hd1 hdot1
  have e1t : digitRun cs = d1 := by
    rw [hcs]; exact takeWhile_run hd1 hdot1
  have e2 : (d2 ++ '.' :: (d3 ++ rest)).dropWhile Char.isDigit = '.' :: (d3 ++ rest) :=
    dropWhile_run hd2 hdot2
  have e2t : digitRun (d2 ++ '.' :: (d3 ++ rest)) = d2 := takeWhile_run hd2 hdot2
  have e3 : (d3 ++ rest).dropWhile Char.isDigit = rest := dropWhile_run hd3 hrest
  have e3t : digitRun (d3 ++ rest) = d3 := takeWhile_run hd3 hrest
  unfold semVerParts
  rw [e1]
  simp only [e2]
  rw [e1t, e2t, e3t, e3]
  simp [List.isEmpty_iff, hn1, hn2, hn3, hcs]

/-- `suffixOk` only accepts suffixes that do not begin with a digit, so a
valid suffix never extends the greedy digit run in front of it. -/
theorem suffixOk_headFails {rest : List Char} (h : suffixOk rest = true) :
    headFails Char.isDigit rest := by
  cases rest with
  | nil => trivial
  | cons c r =>
    show c.isDigit = false
    unfold suffixOk at h
    split at h
    · next heq => exact List.noConfusion heq
    · next rest heq =>
      injection heq with h1 _
      subst h1; decide
    · next rest heq =>
      injection heq with h1 _
      subst h1; decide
    · exact absurd h (by simp)

theorem isSemVerL_iff {cs : List Char} :
    isSemVerL cs = true ↔
      ∃ d1 d2 d3 rest, PartsShape cs d1 d2 d3 rest ∧ suffixOk rest = true := by
  constructor
  · intro h
    unfold isSemVerL at h
    split at h
    · next d1 d2 d3 rest heq => exact ⟨d1, d2, d3, rest, semVerParts_sound heq, h⟩
    · exact absurd h (by simp)
  · rintro ⟨d1, d2, d3, rest, hshape, hsuf⟩
    unfold isSemVerL
    rw [semVerParts_complete hshape]
    exact hsuf

/-! ### Decimal rendering and parsing lemmas -/

theorem digitChar_isDigit {d : Nat} (h : d < 10) : (digitChar d).isDigit = true := by
  interval_cases d <;> decide

theorem digitChar_toNat {d : Nat} (h : d < 10) : (digitChar d).toNat = 48 + d := by
  interval_cases d <;> decide

theorem toDecimalAux_ne_nil (fuel n : Nat) : toDecimalAux fuel n ≠ [] := by
  cases fuel with
  | zero => exact List.cons_ne_nil _ _
  | succ fuel =>
    unfold toDecimalAux
    split
    · exact List.cons_ne_nil _ _
    · exact fun h => List.append_ne_nil_of_right_ne_nil _ (List.cons_ne_nil _ _) h

theorem toDecimal_ne_nil (n : Nat) : toDecimal n ≠ [] :=
  toDecimalAux_ne_nil n n

theorem toDecimalAux_digits (fuel : Nat) :
    ∀ n, ∀ c ∈ toDecimalAux fuel n, c.isDigit = true := by
  induction fuel with
  | zero =>
    intro n c hc
    rw [show toDecimalAux 0 n = [digitChar (n % 10)] from rfl, List.mem_singleton] at hc
    subst hc
    exact digitChar_isDigit (Nat.mod_lt _ (by omega))
  | succ fuel ih =>
    intro n c hc
    unfold toDecimalAux at hc
    split at hc
    · next h =>
      rw [List.mem_singleton] at hc
      subst hc
      exact digitChar_isDigit h
    · rcases List.mem_append.mp hc with hc | hc
      · exact ih (n / 10) c hc
      · rw [List.mem_singleton] at hc
        subst hc
        exact digitChar_isDigit (Nat.mod_lt _ (by omega))

theorem toDecimal_digits (n : Nat) : ∀ c ∈ toDecimal n, c.isDigit = true :=
  toDecimalAux_digits n n

theorem parseIntNat_append_singleton (xs : List Char) (c : Char) :
    parseIntNat (xs ++ [c]) = parseIntNat xs * 10 + (c.toNat - 48) := by
  unfold parseIntNat
  rw [List.foldl_append]
  rfl

theorem parseIntNat_toDecimalAux (fuel : Nat) :
    ∀ n, n ≤ fuel → parseIntNat (toDecimalAux fuel n) = n := by
  induction fuel with
  | zero =>
    intro n hn
    have h0 : n = 0 := Nat.le_zero.mp hn
    subst h0
    decide
  | succ fuel ih =>
    intro n hn
    unfold toDecimalAux
    split
    · next h =>
      show parseIntNat [digitChar n] = n
      unfold parseIntNat
      simp [digitChar_toNat h]
    · next h =>
      have hdiv : n / 10 ≤ fuel := by omega
      rw [parseIntNat_append_singleton, ih (n / 10) hdiv,
        digitChar_toNat (Nat.mod_lt _ (by omega))]
      omega

theorem parseIntNat_toDecimal (n : Nat) : parseIntNat (toDecimal n) = n :=
  parseIntNat_toDecimalAux n n (Nat.le_refl n)

/-! ### Evaluation of `basicExec` on a decomposed version string -/

theorem tryLens_top {f : Nat → Option Nat} {k r : Nat} (h : f (k + 1) = some r) :
    tryLens (k + 1) f = some r := by
  unfold tryLens
  rw [h]

theorem matchDigits_run {d rest : List Char} (hne : d ≠ [])
    (hd : ∀ c ∈ d, c.isDigit = true) (hr : headFails Char.isDigit rest) :
    matchDigits (d ++ rest) = some d.length := by
  unfold matchDigits
  rw [show digitRun (d ++ rest) = d from takeWhile_run hd hr]
  simp [List.isEmpty_iff, hne]

theorem matchSeg_run {next : List Char → Option Nat} {d rest : List Char} {n : Nat}
    (hne : d ≠ []) (hd : ∀ c ∈ d, c.isDigit = true) (hnext : next rest = some n) :
    matchSeg next (d ++ '.' :: rest) = some (d.length + 1 + n) := by
  have hdot : headFails Char.isDigit ('.' :: rest) := by
    show Char.isDigit '.' = false; decide
  unfold matchSeg
  rw [show digitRun (d ++ '.' :: rest) = d from takeWhile_run hd hdot]
  rcases List.exists_cons_of_ne_nil hne with ⟨c, d', rfl⟩
  have hlen : (c :: d').length = d'.length + 1 := by simp
  rw [hlen]
  apply tryLens_top
  rw [show d'.length + 1 = (c :: d').length from by simp,
    List.drop_left (c :: d') ('.' :: rest)]
  simp only [lineTerm]
  rw [hnext]
  simp

theorem basicExec_of_parts {cs d1 d2 d3 rest : List Char}
    (h : PartsShape cs d1 d2 d3 rest) :
    basicExec cs = some (d1 ++ '.' :: (d2 ++ '.' :: d3)) := by
  obtain ⟨hcs, hn1, hn2, hn3, hd1, hd2, hd3, hrest⟩ := h
  have h3 : matchDigits (d3 ++ rest) = some d3.length := matchDigits_run hn3 hd3 hrest
  have h2 : matchSeg matchDigits (d2 ++ '.' :: (d3 ++ rest)) =
      some (d2.length + 1 + d3.length) := matchSeg_run hn2 hd2 h3
  have h1 : matchSeg (matchSeg matchDigits) (d1 ++ '.' :: (d2 ++ '.' :: (d3 ++ rest))) =
      some (d1.length + 1 + (d2.length + 1 + d3.length)) := matchSeg_run hn1 hd1 h2
  unfold basicExec
  rw [hcs, h1]
  show some ((d1 ++ '.' :: (d2 ++ '.' :: (d3 ++ rest))).take
      (d1.length + 1 + (d2.length + 1 + d3.length))) = some (d1 ++ '.' :: (d2 ++ '.' :: d3))
  congr 1
  rw [show d1.length + 1 + (d2.length + 1 + d3.length) =
      d1.length + ((d2.length + 1 + d3.length) + 1) from by omega,
    List.take_append, List.take_succ_cons]
  congr 2
  rw [show d2.length + 1 + d3.length = d2.length + (d3.length + 1) from by omega,
    List.take_append, List.take_succ_cons]
  congr 2
  rw [List.take_append_of_le_length (Nat.le_refl _), List.take_length]

/-! ### `splitDots`, `joinDots` and `replaceFirst` lemmas -/

theorem splitDots_no_dot {a : List Char} (h : ∀ c ∈ a, ¬ c = '.') :
    splitDots a = [a] := by
  induction a with
  | nil => rfl
  | cons c r ih =>
    have hc : ¬ c = '.' := h c (List.mem_cons_self c r)
    have := ih (fun x hx => h x (List.mem_cons_of_mem c hx))
    unfold splitDots
    rw [if_neg hc, this]

theorem splitDots_cons (c : Char) (rest : List Char) :
    splitDots (c :: rest) =
      if c = '.' then [] :: splitDots rest
      else
        match splitDots rest with
        | [] => [[c]]
        | h :: t => (c :: h) :: t := rfl

theorem splitDots_append_dot {a r : List Char} (h : ∀ c ∈ a, ¬ c = '.') :
    splitDots (a ++ '.' :: r) = a :: splitDots r := by
  induction a with
  | nil =>
    show splitDots ('.' :: r) = [] :: splitDots r
    rw [splitDots_cons, if_pos rfl]
  | cons c a' ih =>
    have hc : ¬ c = '.' := h c (List.mem_cons_self c a')
    have hrec := ih (fun x hx => h x (List.mem_cons_of_mem c hx))
    show splitDots (c :: (a' ++ '.' :: r)) = (c :: a') :: splitDots r
    rw [splitDots_cons, if_neg hc, hrec]

theorem splitDots_triple {d1 d2 d3 : List Char}
    (h1 : ∀ c ∈ d1, c.isDigit = true) (h2 : ∀ c ∈ d2, c.isDigit = true)
    (h3 : ∀ c ∈ d3, c.isDigit = true) :
    splitDots (d1 ++ '.' :: (d2 ++ '.' :: d3)) = [d1, d2, d3] := by
  rw [splitDots_append_dot (fun c hc => digit_not_dot (h1 c hc)),
    splitDots_append_dot (fun c hc => digit_not_dot (h2 c hc)),
    splitDots_no_dot (fun c hc => digit_not_dot (h3 c hc))]

theorem leadsWith_append_self (xs ys : List Char) : leadsWith xs (xs ++ ys) = true := by
  induction xs with
  | nil => rfl
  | cons c r ih => simp [leadsWith, ih]

theorem replaceFirst_head (pat tail rep : List Char) :
    replaceFirst (pat ++ tail) pat rep = rep ++ tail := by
  unfold replaceFirst
  have h0 : findSubstrIdx (pat ++ tail) pat = some 0 := by
    unfold findSubstrIdx
    unfold findSubstrIdx.go
    rw [leadsWith_append_self]
    simp
  rw [h0]
  simp only [List.take_zero, Nat.zero_add, List.nil_append]
  rw [List.drop_left]

/-! ### The behaviour of `incrementSemVer` on a valid version -/

/-- The replacement core triple produced by the first-revision `switch`. -/
def newCore : SemVerType → List Char → List Char → List Char → List Char
  | .MAJOR, d1, _, _ => incrementStrNum d1 ++ '.' :: ('0' :: '.' :: ['0'])
  | .MINOR, d1, d2, _ => d1 ++ '.' :: (incrementStrNum d2 ++ '.' :: ['0'])
  | .PATCH, d1, d2, d3 => d1 ++ '.' :: (d2 ++ '.' :: incrementStrNum d3)
  | .UNKNOWN, _, _, _ => []

theorem incrementSemVer_ok {version : String} {d1 d2 d3 rest : List Char} {t : SemVerType}
    (hp : PartsShape version.data d1 d2 d3 rest) (hs : suffixOk rest = true)
    (ht : ¬ t = SemVerType.UNKNOWN) :
    incrementSemVer version t = .ok (String.mk (newCore t d1 d2 d3 ++ rest)) := by
  have hsem : isSemVer version = true := by
    unfold isSemVer
    exact isSemVerL_iff.mpr ⟨d1, d2, d3, rest, hp, hs⟩
  have hexec := basicExec_of_parts hp
  have hsplit := splitDots_triple hp.2.2.2.2.1 hp.2.2.2.2.2.1 hp.2.2.2.2.2.2.1
  have hdata : version.data = (d1 ++ '.' :: (d2 ++ '.' :: d3)) ++ rest := by
    rw [hp.1]; simp
  unfold incrementSemVer
  rw [hsem]
  simp only [Bool.true_eq_false, if_false]
  rw [hexec]
  show (match bumpArr (splitDots (d1 ++ '.' :: (d2 ++ '.' :: d3))) t with
    | Except.error e => Except.error e
    | Except.ok arr => Except.ok (String.mk (replaceFirst version.data
        (d1 ++ '.' :: (d2 ++ '.' :: d3)) (joinDots arr)))) =
    Except.ok (String.mk (newCore t d1 d2 d3 ++ rest))
  rw [hsplit]
  cases t with
  | MAJOR =>
    show Except.ok (String.mk (replaceFirst version.data (d1 ++ '.' :: (d2 ++ '.' :: d3))
      (joinDots [incrementStrNum d1, ['0'], ['0']]))) = _
    rw [hdata, replaceFirst_head]
    rfl
  | MINOR =>
    show Except.ok (String.mk (replaceFirst version.data (d1 ++ '.' :: (d2 ++ '.' :: d3))
      (joinDots [d1, incrementStrNum d2, ['0']]))) = _
    rw [hdata, replaceFirst_head]
    rfl
  | PATCH =>
    show Except.ok (String.mk (replaceFirst version.data (d1 ++ '.' :: (d2 ++ '.' :: d3))
      (joinDots [d1, d2, incrementStrNum d3]))) = _
    rw [hdata, replaceFirst_head]
    rfl
  | UNKNOWN => exact absurd rfl ht

/-- The three component strings after the first-revision `switch`. -/
def bumpTripleStr : SemVerType → List Char → List Char → List Char →
    List Char × List Char × List Char
  | .MAJOR, d1, _, _ => (incrementStrNum d1, ['0'], ['0'])
  | .MINOR, d1, d2, _ => (d1, incrementStrNum d2, ['0'])
  | .PATCH, d1, d2, d3 => (d1, d2, incrementStrNum d3)
  | .UNKNOWN, d1, d2, d3 => (d1, d2, d3)

theorem incrementStrNum_ne_nil (d : List Char) : incrementStrNum d ≠ [] :=
  toDecimal_ne_nil _

theorem incrementStrNum_digits (d : List Char) :
    ∀ c ∈ incrementStrNum d, c.isDigit = true :=
  toDecimal_digits _

theorem zero_digit : ∀ c ∈ ['0'], c.isDigit = true := by decide

theorem newCore_parts {d1 d2 d3 rest : List Char} {t : SemVerType}
    (hn1 : d1 ≠ []) (hn2 : d2 ≠ [])
    (hd1 : ∀ c ∈ d1, c.isDigit = true) (hd2 : ∀ c ∈ d2, c.isDigit = true)
    (hr : headFails Char.isDigit rest) (ht : ¬ t = SemVerType.UNKNOWN) :
    semVerParts (newCore t d1 d2 d3 ++ rest) =
      some ((bumpTripleStr t d1 d2 d3).1, (bumpTripleStr t d1 d2 d3).2.1,
        (bumpTripleStr t d1 d2 d3).2.2, rest) := by
  cases t with
  | MAJOR =>
    apply semVerParts_complete
    refine ⟨by simp [newCore, bumpTripleStr], incrementStrNum_ne_nil d1,
      by simp [bumpTripleStr], by simp [bumpTripleStr], incrementStrNum_digits d1,
      zero_digit, zero_digit, hr⟩
  | MINOR =>
    apply semVerParts_complete
    refine ⟨by simp [newCore, bumpTripleStr], hn1, incrementStrNum_ne_nil d2,
      by simp [bumpTripleStr], hd1, incrementStrNum_digits d2, zero_digit, hr⟩
  | PATCH =>
    apply semVerParts_complete
    refine ⟨by simp [newCore, bumpTripleStr], hn1, hn2, incrementStrNum_ne_nil d3,
      hd1, hd2, incrementStrNum_digits d3, hr⟩
  | UNKNOWN => exact absurd rfl ht

theorem data_mk (l : List Char) : (String.mk l).data = l := rfl

/-- The source mechanism for reading off the numeric core triple of a version
text: the `reSemVerFormatBasic` triple, each component read as a number. -/
def coreTripleNums (v : String) : Option (Nat × Nat × Nat) :=
  match semVerParts v.data with
  | some (a, b, c, _) => some (parseIntNat a, parseIntNat b, parseIntNat c)
  | none => none

/-- Core triple of the version text returned by an increment, `none` on a
raised error. -/
def tripleOfResult : Except String String → Option (Nat × Nat × Nat)
  | .ok w => coreTripleNums w
  | .error _ => none

theorem coreTripleNums_of_parts {v : String} {d1 d2 d3 rest : List Char}
    (h : semVerParts v.data = some (d1, d2, d3, rest)) :
    coreTripleNums v = some (parseIntNat d1, parseIntNat d2, parseIntNat d3) := by
  unfold coreTripleNums
  rw [h]

theorem parseIntNat_incrementStrNum (d : List Char) :
    parseIntNat (incrementStrNum d) = parseIntNat d + 1 :=
  parseIntNat_toDecimal _

/-- Claim C1: for every valid version text with core triple `(M, m, p)`,
incrementing with MAJOR yields a text with triple `(M+1, 0, 0)`, with MINOR a
text with triple `(M, m+1, 0)`, and with PATCH a text with triple
`(M, m, p+1)`; in particular `increment("1.2.3", MAJOR) = "2.0.0"`,
`increment("1.2.3", MINOR) = "1.3.0"` and `increment("1.2.3", PATCH) =
"1.2.4"`. -/
theorem claim_C1_increment_triples (v : String) (M m p : Nat)
    (hv : isSemVer v = true) (ht : coreTripleNums v = some (M, m, p)) :
    tripleOfResult (incrementSemVer v .MAJOR) = some (M + 1, 0, 0) ∧
    tripleOfResult (incrementSemVer v .MINOR) = some (M, m + 1, 0) ∧
    tripleOfResult (incrementSemVer v .PATCH) = some (M, m, p + 1) ∧
    incrementSemVer "1.2.3" .MAJOR = .ok "2.0.0" ∧
    incrementSemVer "1.2.3" .MINOR = .ok "1.3.0" ∧
    incrementSemVer "1.2.3" .PATCH = .ok "1.2.4" := by
  obtain ⟨d1, d2, d3, rest, hshape, hsuf⟩ := isSemVerL_iff.mp hv
  have hparts : semVerParts v.data = some (d1, d2, d3, rest) := semVerParts_complete hshape
  rw [coreTripleNums_of_parts hparts] at ht
  simp only [Option.some_inj, Prod.mk.injEq] at ht
  obtain ⟨hM, hm, hp2⟩ := ht
  obtain ⟨hcs, hn1, hn2, hn3, hd1, hd2, hd3, hrest⟩ := id hshape
  refine ⟨?_, ?_, ?_, by rfl, by rfl, by rfl⟩
  · rw [incrementSemVer_ok hshape hsuf (by decide)]
    show coreTripleNums (String.mk (newCore .MAJOR d1 d2 d3 ++ rest)) = _
    unfold coreTripleNums
    rw [data_mk, newCore_parts hn1 hn2 hd1 hd2 hrest (by decide)]
    show some (parseIntNat (incrementStrNum d1), parseIntNat ['0'], parseIntNat ['0']) = _
    rw [parseIntNat_incrementStrNum, hM]
    rfl
  · rw [incrementSemVer_ok hshape hsuf (by decide)]
    show coreTripleNums (String.mk (newCore .MINOR d1 d2 d3 ++ rest)) = _
    unfold coreTripleNums
    rw [data_mk, newCore_parts hn1 hn2 hd1 hd2 hrest (by decide)]
    show some (parseIntNat d1, parseIntNat (incrementStrNum d2), parseIntNat ['0']) = _
    rw [parseIntNat_incrementStrNum, hM, hm]
    rfl
  · rw [incrementSemVer_ok hshape hsuf (by decide)]
    show coreTripleNums (String.mk (newCore .PATCH d1 d2 d3 ++ rest)) = _
    unfold coreTripleNums
    rw [data_mk, newCore_parts hn1 hn2 hd1 hd2 hrest (by decide)]
    show some (parseIntNat d1, parseIntNat d2, parseIntNat (incrementStrNum d3)) = _
    rw [parseIntNat_incrementStrNum, hM, hm, hp2]

theorem claim_C1_witness :
    tripleOfResult (incrementSemVer "1.2.3" .MAJOR) = some (2, 0, 0) :=
  (claim_C1_increment_triples "1.2.3" 1 2 3 (by decide) (by decide)).1

/-- Claim C5: for every valid version string `v` and change type
`t ∈ {MAJOR, MINOR, PATCH}`, `increment(v, t)` succeeds and the result again
satisfies `validate` — the valid version texts are closed under increment. -/
theorem claim_C5_closure (v : String) (t : SemVerType)
    (ht : ¬ t = SemVerType.UNKNOWN) (hv : isSemVer v = true) :
    ∃ w, incrementSemVer v t = .ok w ∧ isSemVer w = true := by
  obtain ⟨d1, d2, d3, rest, hshape, hsuf⟩ := isSemVerL_iff.mp hv
  obtain ⟨hcs, hn1, hn2, hn3, hd1, hd2, hd3, hrest⟩ := id hshape
  refine ⟨_, incrementSemVer_ok hshape hsuf ht, ?_⟩
  unfold isSemVer isSemVerL
  rw [data_mk, newCore_parts hn1 hn2 hd1 hd2 hrest ht]
  exact hsuf

theorem claim_C5_witness :
    ∃ w, incrementSemVer "0.9.11-rc.1+b-7" .MINOR = .ok w ∧ isSemVer w = true :=
  claim_C5_closure "0.9.11-rc.1+b-7" .MINOR (by decide) (by decide)

/-- Claim C8: on a valid version text the increment replaces only the leading
numeric triple and reattaches the prerelease/build suffix verbatim after the
new triple; in particular `increment("1.2.3-beta.1", PATCH) =
"1.2.4-beta.1"`. -/
theorem claim_C8_suffix_preserved (v : String) (t : SemVerType)
    (d1 d2 d3 rest : List Char) (ht : ¬ t = SemVerType.UNKNOWN)
    (hp : semVerParts v.data = some (d1, d2, d3, rest)) (hs : suffixOk rest = true) :
    incrementSemVer v t = .ok (String.mk (newCore t d1 d2 d3 ++ rest)) ∧
    incrementSemVer "1.2.3-beta.1" .PATCH = .ok "1.2.4-beta.1" :=
  ⟨incrementSemVer_ok (semVerParts_sound hp) hs ht, by rfl⟩

theorem claim_C8_witness :
    incrementSemVer "1.2.3-beta.1" .PATCH =
      .ok (String.mk (newCore .PATCH ['1'] ['2'] ['3'] ++ "-beta.1".data)) :=
  (claim_C8_suffix_preserved "1.2.3-beta.1" .PATCH ['1'] ['2'] ['3'] "-beta.1".data
    (by decide) (by decide) (by decide)).1

/-! ### Declarative version grammar (C9)

`SuffixShape`, `SpecSemVerLZ` and `SpecSemVerStrict` transcribe the
specification text `MAJOR.MINOR.PATCH[-PRERELEASE][+BUILD]` declaratively,
to be compared with the executable regex model `isSemVerL`. -/

/-- Spec-level build metadata: a nonempty chunk of `[0-9A-Za-z-]`. -/
def BuildShape (b : List Char) : Prop :=
  b ≠ [] ∧ ∀ c ∈ b, identChar c = true

/-- Spec-level prerelease: nonempty dot-separated nonempty
`[0-9A-Za-z-]+` identifiers. -/
def PreShape (p : List Char) : Prop :=
  ∃ parts : List (List Char), parts ≠ [] ∧
    (∀ q ∈ parts, q ≠ [] ∧ ∀ c ∈ q, identChar c = true) ∧ p = joinDots parts

/-- Spec-level optional `-PRERELEASE` and `+BUILD` suffix. -/
def SuffixShape (s : List Char) : Prop :=
  s = [] ∨ (∃ p, s = '-' :: p ∧ PreShape p) ∨ (∃ b, s = '+' :: b ∧ BuildShape b) ∨
  (∃ p b, s = '-' :: (p ++ '+' :: b) ∧ PreShape p ∧ BuildShape b)

/-- Modelled from the spec: the strict grammar
`MAJOR.MINOR.PATCH[-PRERELEASE][+BUILD]` with the three components nonempty
digit strings (leading zeros permitted). -/
def SpecSemVerLZ (cs : List Char) : Prop :=
  ∃ d1 d2 d3 s, cs = d1 ++ '.' :: (d2 ++ '.' :: (d3 ++ s)) ∧
    d1 ≠ [] ∧ d2 ≠ [] ∧ d3 ≠ [] ∧
    (∀ c ∈ d1, c.isDigit = true) ∧ (∀ c ∈ d2, c.isDigit = true) ∧
    (∀ c ∈ d3, c.isDigit = true) ∧ SuffixShape s

/-- A component has no leading-zero ambiguity beyond `"0"`. -/
def noLeadZero : List Char → Bool
  | '0' :: _ :: _ => false
  | _ => true

/-- Modelled from the spec: the strict grammar as claimed, additionally
requiring the no-leading-zero condition on each component. -/
def SpecSemVerStrict (cs : List Char) : Prop :=
  ∃ d1 d2 d3 s, cs = d1 ++ '.' :: (d2 ++ '.' :: (d3 ++ s)) ∧
    d1 ≠ [] ∧ d2 ≠ [] ∧ d3 ≠ [] ∧
    (∀ c ∈ d1, c.isDigit = true) ∧ (∀ c ∈ d2, c.isDigit = true) ∧
    (∀ c ∈ d3, c.isDigit = true) ∧
    noLeadZero d1 = true ∧ noLeadZero d2 = true ∧ noLeadZero d3 = true ∧
    SuffixShape s

theorem splitDots_ne_nil (l : List Char) : splitDots l ≠ [] := by
  cases l with
  | nil => exact List.cons_ne_nil _ _
  | cons c r =>
    rw [splitDots_cons]
    split
    · exact List.cons_ne_nil _ _
    · split
      · exact List.cons_ne_nil _ _
      · exact List.cons_ne_nil _ _

theorem splitDots_sub {l : List Char} {q : List Char} (hq : q ∈ splitDots l) :
    ∀ c ∈ q, c ∈ l ∧ ¬ c = '.' := by
  induction l generalizing q with
  | nil =>
    intro c hc
    rw [show splitDots [] = [[]] from rfl, List.mem_singleton] at hq
    subst hq
    exact absurd hc (List.not_mem_nil c)
  | cons a r ih =>
    intro c hc
    rw [splitDots_cons] at hq
    by_cases ha : a = '.'
    · rw [if_pos ha] at hq
      rcases List.mem_cons.mp hq with hq | hq
      · subst hq; exact absurd hc (List.not_mem_nil c)
      · obtain ⟨hmem, hdot⟩ := ih hq c hc
        exact ⟨List.mem_cons_of_mem a hmem, hdot⟩
    · rw [if_neg ha] at hq
      rcases hsd : splitDots r with _ | ⟨h0, t0⟩
      · exact absurd hsd (splitDots_ne_nil r)
      · rw [hsd] at hq
        rcases List.mem_cons.mp hq with hq | hq
        · subst hq
          rcases List.mem_cons.mp hc with hc | hc
          · subst hc; exact ⟨List.mem_cons_self _ _, ha⟩
          · obtain ⟨hmem, hdot⟩ := ih (hsd ▸ List.mem_cons_self h0 t0) c hc
            exact ⟨List.mem_cons_of_mem a hmem, hdot⟩
        · obtain ⟨hmem, hdot⟩ := ih (hsd ▸ List.mem_cons_of_mem h0 hq) c hc
          exact ⟨List.mem_cons_of_mem a hmem, hdot⟩

theorem joinDots_cons (a : List Char) (h : List Char) (t : List (List Char)) :
    joinDots (a :: h :: t) = a ++ '.' :: joinDots (h :: t) := rfl

theorem joinDots_splitDots (l : List Char) : joinDots (splitDots l) = l := by
  induction l with
  | nil => rfl
  | cons c r ih =>
    rw [splitDots_cons]
    by_cases hc : c = '.'
    · subst hc
      rw [if_pos rfl]
      rcases hsd : splitDots r with _ | ⟨h0, t0⟩
      · exact absurd hsd (splitDots_ne_nil r)
      · rw [joinDots_cons, List.nil_append]
        rw [hsd] at ih
        rw [ih]
    · rw [if_neg hc]
      rcases hsd : splitDots r with _ | ⟨h0, t0⟩
      · exact absurd hsd (splitDots_ne_nil r)
      · rw [hsd] at ih
        cases t0 with
        | nil =>
          show c :: h0 = c :: r
          rw [show joinDots [h0] = h0 from rfl] at ih
          rw [ih]
        | cons h1 t1 =>
          rw [joinDots_cons] at ih
          rw [joinDots_cons, List.cons_append, ih]

theorem splitDots_joinDots {parts : List (List Char)} (hne : parts ≠ [])
    (hdot : ∀ q ∈ parts, ∀ c ∈ q, ¬ c = '.') :
    splitDots (joinDots parts) = parts := by
  induction parts with
  | nil => exact absurd rfl hne
  | cons q rest ih =>
    cases rest with
    | nil =>
      show splitDots (joinDots [q]) = [q]
      rw [show joinDots [q] = q from rfl]
      exact splitDots_no_dot (hdot q (List.mem_cons_self _ _))
    | cons q1 rest1 =>
      rw [joinDots_cons, splitDots_append_dot (hdot q (List.mem_cons_self _ _))]
      rw [ih (List.cons_ne_nil _ _) (fun x hx => hdot x (List.mem_cons_of_mem q hx))]

theorem joinDots_chars {parts : List (List Char)}
    (h : ∀ q ∈ parts, ∀ c ∈ q, identChar c = true) :
    ∀ c ∈ joinDots parts, preChar c = true := by
  induction parts with
  | nil => intro c hc; exact absurd hc (List.not_mem_nil c)
  | cons q rest ih =>
    intro c hc
    cases rest with
    | nil =>
      rw [show joinDots [q] = q from rfl] at hc
      unfold preChar
      rw [h q (List.mem_cons_self _ _) c hc]
      rfl
    | cons q1 rest1 =>
      rw [joinDots_cons] at hc
      rcases List.mem_append.mp hc with hc | hc
      · unfold preChar
        rw [h q (List.mem_cons_self _ _) c hc]
        rfl
      · rcases List.mem_cons.mp hc with hc | hc
        · subst hc; decide
        · exact ih (fun x hx => h x (List.mem_cons_of_mem q hx)) c hc

theorem ident_not_dot {c : Char} (h : identChar c = true) : ¬ c = '.' := by
  intro hc
  subst hc
  exact absurd h (by decide)

theorem ne_nil_of_isEmpty_false {l : List Char} (h : l.isEmpty = false) : l ≠ [] := by
  cases l with
  | nil => exact absurd h (by decide)
  | cons c r => exact List.cons_ne_nil c r

theorem isEmpty_false_of_ne_nil {l : List Char} (h : l ≠ []) : l.isEmpty = false := by
  cases l with
  | nil => exact absurd rfl h
  | cons c r => rfl

theorem build_and {b : List Char} (h : (!b.isEmpty && b.all identChar) = true) :
    b ≠ [] ∧ ∀ c ∈ b, identChar c = true := by
  rw [Bool.and_eq_true, Bool.not_eq_true', List.all_eq_true] at h
  exact ⟨ne_nil_of_isEmpty_false h.1, h.2⟩

theorem and_build {b : List Char} (hbne : b ≠ []) (hbid : ∀ c ∈ b, identChar c = true) :
    (!b.isEmpty && b.all identChar) = true := by
  rw [Bool.and_eq_true, Bool.not_eq_true', List.all_eq_true]
  exact ⟨isEmpty_false_of_ne_nil hbne, hbid⟩

theorem buildThenEnd_cons {c : Char} {r : List Char} (h : buildThenEnd (c :: r) = true) :
    c = '+' ∧ r ≠ [] ∧ ∀ x ∈ r, identChar x = true := by
  unfold buildThenEnd at h
  revert h
  split
  · next heq => exact List.noConfusion heq
  · next heq =>
    injection heq with h1 h2
    subst h1
    subst h2
    intro h
    exact ⟨rfl, build_and h⟩
  · exact fun hfalse => absurd hfalse (by simp)

theorem suffixOk_cons_head {c : Char} {r : List Char} (h : suffixOk (c :: r) = true) :
    c = '-' ∨ c = '+' := by
  unfold suffixOk at h
  revert h
  split
  · next heq => exact List.noConfusion heq
  · next heq =>
    injection heq with h1 _
    exact fun _ => Or.inl h1
  · next heq =>
    injection heq with h1 _
    exact fun _ => Or.inr h1
  · exact fun hfalse => absurd hfalse (by simp)

theorem preOk_all_nonempty {l : List Char} :
    preOk l = true ↔ ∀ q ∈ splitDots l, q ≠ [] := by
  unfold preOk
  rw [List.all_eq_true]
  constructor
  · intro h q hq
    simpa [List.isEmpty_iff] using h q hq
  · intro h q hq
    simpa [List.isEmpty_iff] using h q hq

theorem preShape_of_chunk {rest : List Char} (hpre : preOk (preChunk rest) = true) :
    PreShape (preChunk rest) := by
  refine ⟨splitDots (preChunk rest), splitDots_ne_nil _, ?_, (joinDots_splitDots _).symm⟩
  intro q hq
  refine ⟨preOk_all_nonempty.mp hpre q hq, ?_⟩
  intro x hx
  obtain ⟨hmem, hdot⟩ := splitDots_sub hq x hx
  have hp : preChar x = true := mem_takeWhile hmem
  unfold preChar at hp
  rcases Bool.or_eq_true .. |>.mp hp with hp | hp
  · exact hp
  · exact absurd (by simpa using hp) hdot

theorem preShape_chars {p : List Char} (h : PreShape p) : ∀ c ∈ p, preChar c = true := by
  obtain ⟨parts, _, hparts, rfl⟩ := h
  exact joinDots_chars (fun q hq => (hparts q hq).2)

theorem preOk_of_shape {p : List Char} (h : PreShape p) : preOk p = true := by
  obtain ⟨parts, hne, hparts, rfl⟩ := h
  rw [preOk_all_nonempty,
    splitDots_joinDots hne (fun q hq c hc => ident_not_dot ((hparts q hq).2 c hc))]
  exact fun q hq => (hparts q hq).1

theorem suffixOk_iff_shape {s : List Char} : suffixOk s = true ↔ SuffixShape s := by
  constructor
  · intro h
    cases s with
    | nil => exact Or.inl rfl
    | cons c rest =>
      rcases suffixOk_cons_head h with hc | hc
      · subst hc
        have hval : (preOk (preChunk rest) && buildThenEnd (rest.dropWhile preChar)) = true := h
        rw [Bool.and_eq_true] at hval
        obtain ⟨hpre, hbuild⟩ := hval
        have hsplit : rest = preChunk rest ++ rest.dropWhile preChar :=
          (List.takeWhile_append_dropWhile ..).symm
        have hPre : PreShape (preChunk rest) := preShape_of_chunk hpre
        rcases hdrop : rest.dropWhile preChar with _ | ⟨b0, brest⟩
        · refine Or.inr (Or.inl ⟨preChunk rest, ?_, hPre⟩)
          rw [hdrop, List.append_nil] at hsplit
          rw [← hsplit]
        · rw [hdrop] at hbuild
          obtain ⟨hb0, hbne, hbid⟩ := buildThenEnd_cons hbuild
          subst hb0
          refine Or.inr (Or.inr (Or.inr ⟨preChunk rest, brest, ?_, hPre, hbne, hbid⟩))
          conv_lhs => rw [hsplit, hdrop]
      · subst hc
        have hval : (!rest.isEmpty && rest.all identChar) = true := h
        exact Or.inr (Or.inr (Or.inl ⟨rest, rfl, build_and hval⟩))
  · intro h
    rcases h with h | ⟨p, hps, hp⟩ | ⟨b, hbs, hb⟩ | ⟨p, b, hps, hp, hb⟩
    · subst h; rfl
    · subst hps
      have hchars := preShape_chars hp
      show (preOk (preChunk p) && buildThenEnd (p.dropWhile preChar)) = true
      rw [show preChunk p = p from takeWhile_all hchars,
        show p.dropWhile preChar = [] from by
          simpa using @dropWhile_run preChar p [] hchars trivial,
        preOk_of_shape hp]
      rfl
    · subst hbs
      obtain ⟨hbne, hbid⟩ := hb
      show (!b.isEmpty && b.all identChar) = true
      exact and_build hbne hbid
    · subst hps
      obtain ⟨hbne, hbid⟩ := hb
      have hchars := preShape_chars hp
      have hplus : headFails preChar ('+' :: b) := by
        show preChar '+' = false
        decide
      show (preOk (preChunk (p ++ '+' :: b)) &&
        buildThenEnd ((p ++ '+' :: b).dropWhile preChar)) = true
      rw [show preChunk (p ++ '+' :: b) = p from takeWhile_run hchars hplus,
        dropWhile_run hchars hplus, preOk_of_shape hp]
      show (true && (!b.isEmpty && b.all identChar)) = true
      rw [Bool.true_and]
      exact and_build hbne hbid

/-- Claim C9 (amended): `validate(text)` returns true iff `text` matches the
grammar `MAJOR.MINOR.PATCH[-PRERELEASE][+BUILD]` where the three components
are arbitrary nonempty digit strings — leading zeros are accepted, contrary
to the original claim. -/
theorem claim_C9_grammar_leading_zeros (cs : List Char) :
    isSemVerL cs = true ↔ SpecSemVerLZ cs := by
  rw [isSemVerL_iff]
  constructor
  · rintro ⟨d1, d2, d3, rest, ⟨hcs, hn1, hn2, hn3, hd1, hd2, hd3, _⟩, hsuf⟩
    exact ⟨d1, d2, d3, rest, hcs, hn1, hn2, hn3, hd1, hd2, hd3,
      suffixOk_iff_shape.mp hsuf⟩
  · rintro ⟨d1, d2, d3, s, hcs, hn1, hn2, hn3, hd1, hd2, hd3, hshape⟩
    have hsuf := suffixOk_iff_shape.mpr hshape
    exact ⟨d1, d2, d3, s, ⟨hcs, hn1, hn2, hn3, hd1, hd2, hd3,
      suffixOk_headFails hsuf⟩, hsuf⟩

/-- Claim C9 counterexample: the component `"01"` does not invalidate the
text for the implementation — `isSemVer "01.2.3"` is `true` although the
claimed strict no-leading-zero grammar rejects it, so `validate` does not
coincide with that grammar. -/
theorem claim_C9_counterexample :
    isSemVer "01.2.3" = true ∧ ¬ SpecSemVerStrict "01.2.3".data ∧
    ¬ (isSemVer "01.2.3" = true ↔ SpecSemVerStrict "01.2.3".data) := by
  have h1 : isSemVer "01.2.3" = true := by decide
  have h2 : ¬ SpecSemVerStrict "01.2.3".data := by
    rintro ⟨d1, d2, d3, s, hcs, hn1, _, _, hd1, _, _, hz1, _, _, _⟩
    have hd1run : digitRun "01.2.3".data = d1 := by
      rw [hcs]
      exact takeWhile_run hd1 (show Char.isDigit '.' = false by decide)
    have hcomp : digitRun "01.2.3".data = ['0', '1'] := by decide
    rw [hcomp] at hd1run
    rw [← hd1run] at hz1
    exact absurd hz1 (by decide)
  exact ⟨h1, h2, fun hiff => h2 (hiff.mp h1)⟩

/-- Claim C2 counterexample: on empty input (no trigger pattern matches) the
first-revision classifier raises an error instead of returning UNKNOWN as an
ordinary value. -/
theorem claim_C2_counterexample :
    noTagMatches "" = true ∧
    getChangeTypeFromString "" = .error (noTypeMsg "") ∧
    ¬ getChangeTypeFromString "" = .ok SemVerType.UNKNOWN := by
  refine ⟨by decide, by rfl, fun h => ?_⟩
  rw [show getChangeTypeFromString "" = .error (noTypeMsg "") from rfl] at h
  exact Except.noConfusion h

/-- Claim C2 (amended): when no trigger pattern matches (including empty
text), the first-revision classifier throws its no-type error, while the
second-revision classifier returns UNKNOWN as an ordinary value. -/
theorem claim_C2_no_match_behaviour (str : String) (h : noTagMatches str = true) :
    getChangeTypeFromString str = .error (noTypeMsg str) ∧
    getChangeTypeFromString2 str = SemVerType.UNKNOWN := by
  unfold noTagMatches at h
  rw [Bool.and_eq_true, Bool.and_eq_true, Option.isNone_iff_eq_none,
    Option.isNone_iff_eq_none, Option.isNone_iff_eq_none] at h
  obtain ⟨⟨hmaj, hmin⟩, hpat⟩ := h
  constructor
  · unfold getChangeTypeFromString getChangeTypeFromStringS tagTest
    simp only [initState, hmaj, hmin, hpat]
    rfl
  · unfold getChangeTypeFromString2 getChangeTypeFromString2S tagTest
    simp only [initState, hmaj, hmin, hpat]
    rfl

theorem claim_C2_witness :
    getChangeTypeFromString "no tag here" = .error (noTypeMsg "no tag here") ∧
    getChangeTypeFromString2 "no tag here" = SemVerType.UNKNOWN :=
  claim_C2_no_match_behaviour "no tag here" (by decide)

/-- Claim C10: the classifier tests MAJOR before MINOR before PATCH with
case-insensitive matching and the first match wins: any text matched by the
major pattern — in particular one also containing a minor tag — classifies
as MAJOR, e.g. `"[MAJOR][minor] x"`. -/
theorem claim_C10_priority (str : String)
    (hmaj : (tagSearchFrom wordMajor str.data 0).isSome = true)
    (_hmin : (tagSearchFrom wordMinor str.data 0).isSome = true) :
    getChangeTypeFromString str = .ok SemVerType.MAJOR ∧
    getChangeTypeFromString "[MAJOR][minor] x" = .ok SemVerType.MAJOR := by
  refine ⟨?_, by rfl⟩
  unfold getChangeTypeFromString getChangeTypeFromStringS tagTest
  rcases hs : tagSearchFrom wordMajor str.data 0 with _ | ⟨i, len⟩
  · rw [hs] at hmaj
    exact absurd hmaj (by decide)
  · simp only [initState, hs]
    rfl

theorem claim_C10_witness :
    getChangeTypeFromString "[MAJOR][minor] x" = .ok SemVerType.MAJOR :=
  (claim_C10_priority "[MAJOR][minor] x" (by decide) (by decide)).1

/-- Claim C3 counterexample: the classifier is not deterministic across calls.
Because of the `g`-flag `lastIndex` state, calling the first-revision
classifier twice in a row with the identical input `"[major]"` yields MAJOR
the first time and an error the second time. -/
theorem claim_C3_counterexample :
    (getChangeTypeFromStringS "[major]" initState).1 = .ok SemVerType.MAJOR ∧
    (getChangeTypeFromStringS "[major]"
      (getChangeTypeFromStringS "[major]" initState).2).1 =
      .error (noTypeMsg "[major]") ∧
    ¬ ((getChangeTypeFromStringS "[major]" initState).1 =
      (getChangeTypeFromStringS "[major]"
        (getChangeTypeFromStringS "[major]" initState).2).1) := by
  refine ⟨by rfl, by rfl, fun h => ?_⟩
  rw [show (getChangeTypeFromStringS "[major]" initState).1 =
      .ok SemVerType.MAJOR from rfl,
    show (getChangeTypeFromStringS "[major]"
      (getChangeTypeFromStringS "[major]" initState).2).1 =
      .error (noTypeMsg "[major]") from rfl] at h
  exact Except.noConfusion h

/-- Claim C3 (amended): `classifyFromText` is stateful — a successful call
updates the matcher `lastIndex` state, and an immediately repeated call with
the identical input can give a different result (here `"#patch"`: first
PATCH, then an error). -/
theorem claim_C3_stateful_classifier :
    (getChangeTypeFromStringS "#patch" initState).1 = .ok SemVerType.PATCH ∧
    ¬ ((getChangeTypeFromStringS "#patch" initState).2 = initState) ∧
    (getChangeTypeFromStringS "#patch"
      (getChangeTypeFromStringS "#patch" initState).2).1 =
      .error (noTypeMsg "#patch") := by
  exact ⟨by rfl, by decide, by rfl⟩

/-- Claim C4: when the document contains at least one entry heading, the
first one at offset `i`, `insertEntry` returns
`document[0:i] ++ newBlock ++ "\n" ++ document[i:]` — the new block lands
immediately before the first existing entry and both the preamble and the
whole suffix are preserved unchanged. -/
theorem claim_C4_splice (doc version date msg : String) (i : Nat)
    (h : searchEntryL doc.data = some i) :
    (updateChangeLog doc version date msg).data =
      doc.data.take i ++ (mkNewEntry version date msg).data ++
        '\n' :: doc.data.drop i := by
  unfold updateChangeLog
  rw [h]

theorem claim_C4_witness :
    (updateChangeLog "# T\n\n## [1.9.0] - 01-12-2023\n\nold\n"
        "2.0.0" "01-01-2024" "* did X").data =
      ("# T\n\n## [1.9.0] - 01-12-2023\n\nold\n".data).take 5 ++
        (mkNewEntry "2.0.0" "01-01-2024" "* did X").data ++
        '\n' :: ("# T\n\n## [1.9.0] - 01-12-2023\n\nold\n".data).drop 5 :=
  claim_C4_splice "# T\n\n## [1.9.0] - 01-12-2023\n\nold\n"
    "2.0.0" "01-01-2024" "* did X" 5 (by decide)

/-- Claim C6 counterexample: inserting into the empty document yields
`"\n" ++ newBlock` — the result starts with a newline, a leading blank-line
artifact, contrary to the claim. -/
theorem claim_C6_counterexample :
    updateChangeLog "" "1.0.0" "01-01-2024" "* x" =
      "\n## [1.0.0] - 01-01-2024\n\n* x\n" ∧
    ("\n## [1.0.0] - 01-01-2024\n\n* x\n").data.head? = some '\n' :=
  ⟨by rfl, by decide⟩

/-- Claim C6 (amended): when no entry heading is found the new block is
appended as `content ++ "\n" ++ newBlock` (a single separating newline, which
forms a blank line only when the content already ends in a newline); on the
empty document the result is `"\n" ++ newBlock`, one well-formed entry
preceded by a leading newline. -/
theorem claim_C6_append_no_heading (doc version date msg : String)
    (h : searchEntryL doc.data = none) :
    (updateChangeLog doc version date msg).data =
      doc.data ++ '\n' :: (mkNewEntry version date msg).data ∧
    (updateChangeLog "" version date msg).data =
      '\n' :: (mkNewEntry version date msg).data := by
  constructor
  · unfold updateChangeLog
    rw [h]
  · rfl

theorem claim_C6_witness :
    (updateChangeLog "# Changelog" "1.0.0" "01-01-2024" "* x").data =
      "# Changelog".data ++ '\n' :: (mkNewEntry "1.0.0" "01-01-2024" "* x").data ∧
    (updateChangeLog "" "1.0.0" "01-01-2024" "* x").data =
      '\n' :: (mkNewEntry "1.0.0" "01-01-2024" "* x").data :=
  claim_C6_append_no_heading "# Changelog" "1.0.0" "01-01-2024" "* x" (by decide)


/-! ### Structure of heading matches (towards C7)

The characters consumed by the bracket region of a heading match are
`benign`: neither `#` nor a line terminator.  Together with prefix
determinism (a match is decided by the characters it consumes), this pins
down where `content.search` can find matches after a block has been
spliced in. -/

/-- Neither `#` nor a line terminator. -/
def benign (c : Char) : Bool :=
  !(c = '#') && !(lineTerm c)

theorem mem_of_getElem {l : List Char} {i : Nat} {a : Char} (h : l[i]? = some a) :
    a ∈ l :=
  List.get?_mem (by rw [List.get?_eq_getElem?, h])

theorem benign_of_not_special {c : Char}
    (h1 : ¬ c = '#') (h2 : ¬ c = '\n') (h3 : ¬ c = '\x0d')
    (h4 : ¬ c = Char.ofNat 0x2028) (h5 : ¬ c = Char.ofNat 0x2029) :
    benign c = true := by
  unfold benign lineTerm
  simp [h1, h2, h3, h4, h5]

theorem benign_of_digit {c : Char} (h : c.isDigit = true) : benign c = true := by
  apply benign_of_not_special <;>
    (intro hc; rw [hc] at h; exact absurd h (by decide))

theorem benign_of_ident {c : Char} (h : identChar c = true) : benign c = true := by
  unfold identChar at h
  rcases Bool.or_eq_true .. |>.mp h with h | h
  · rcases Bool.or_eq_true .. |>.mp h with h | h
    · rcases Bool.or_eq_true .. |>.mp h with h | h
      · exact benign_of_digit h
      · apply benign_of_not_special <;>
          (intro hc; rw [hc] at h; exact absurd h (by decide))
    · apply benign_of_not_special <;>
        (intro hc; rw [hc] at h; exact absurd h (by decide))
  · rw [decide_eq_true_iff] at h
    subst h
    decide

theorem benign_of_preChar {c : Char} (h : preChar c = true) : benign c = true := by
  unfold preChar at h
  rcases Bool.or_eq_true .. |>.mp h with h | h
  · exact benign_of_ident h
  · rw [decide_eq_true_iff] at h
    subst h
    decide

/-- Inversion for `buildThenBracket`. -/
theorem buildThenBracket_inv {r : List Char} {k : Nat}
    (h : buildThenBracket r = some k) :
    (∃ t, r = ']' :: t ∧ k = 1) ∨
    (∃ b t, r = '+' :: (b ++ ']' :: t) ∧ b ≠ [] ∧ (∀ c ∈ b, identChar c = true) ∧
      k = 1 + b.length + 1) := by
  cases r with
  | nil => exact Option.noConfusion h
  | cons c r2 =>
    by_cases hc : c = ']'
    · subst hc
      have h1 : some 1 = some k := h
      rw [Option.some_inj] at h1
      exact Or.inl ⟨r2, rfl, h1.symm⟩
    · by_cases hc2 : c = '+'
      · subst hc2
        have hred : buildThenBracket ('+' :: r2) =
            if (r2.takeWhile identChar).isEmpty = true then none
            else
              match r2.dropWhile identChar with
              | ']' :: _ => some (1 + (r2.takeWhile identChar).length + 1)
              | _ => none := rfl
        rw [hred] at h
        split at h
        · exact Option.noConfusion h
        · next hne =>
          split at h
          · next t hdrop =>
            rw [Option.some_inj] at h
            refine Or.inr ⟨r2.takeWhile identChar, t, ?_, ?_,
              fun x hx => mem_takeWhile hx, h.symm⟩
            · conv_lhs => rw [show r2 = r2.takeWhile identChar ++ r2.dropWhile identChar
                from (List.takeWhile_append_dropWhile ..).symm]
              rw [hdrop]
            · simpa [List.isEmpty_iff] using hne
          · exact Option.noConfusion h
      · exfalso
        have hred : buildThenBracket (c :: r2) = none := by
          unfold buildThenBracket
          split
          · next heq =>
            injection heq with hh _
            exact absurd hh hc
          · next heq =>
            injection heq with hh _
            exact absurd hh hc2
          · rfl
        rw [hred] at h
        exact Option.noConfusion h

theorem buildThenBracket_run {b t : List Char} (hbne : b ≠ [])
    (hbid : ∀ c ∈ b, identChar c = true) :
    buildThenBracket ('+' :: (b ++ ']' :: t)) = some (1 + b.length + 1) := by
  have hbracket : headFails identChar (']' :: t) := by
    show identChar ']' = false
    decide
  show (if ((b ++ ']' :: t).takeWhile identChar).isEmpty = true then none
    else
      match (b ++ ']' :: t).dropWhile identChar with
      | ']' :: _ => some (1 + ((b ++ ']' :: t).takeWhile identChar).length + 1)
      | _ => none) = some (1 + b.length + 1)
  rw [takeWhile_run hbid hbracket, dropWhile_run hbid hbracket,
    if_neg (by simpa [List.isEmpty_iff] using hbne)]
  rfl

theorem buildThenBracket_chars {r : List Char} {k : Nat}
    (h : buildThenBracket r = some k) :
    (r.take k).all benign = true ∧ 1 ≤ k ∧ k ≤ r.length := by
  rcases buildThenBracket_inv h with ⟨t, rfl, rfl⟩ | ⟨b, t, rfl, hbne, hbid, rfl⟩
  · have ht1 : ((']' :: t : List Char)).take 1 = [']'] := rfl
    rw [ht1]
    exact ⟨by decide, Nat.le_refl 1, by simp⟩
  · have htake : ('+' :: (b ++ ']' :: t)).take (1 + b.length + 1) =
        '+' :: (b ++ [']']) := by
      rw [show 1 + b.length + 1 = (b.length + 1) + 1 from by omega, List.take_succ_cons,
        List.take_append, List.take_succ_cons, List.take_zero]
    rw [htake]
    refine ⟨?_, by omega, ?_⟩
    · rw [List.all_cons]
      refine Bool.and_eq_true .. |>.mpr ⟨by decide, ?_⟩
      rw [List.all_append]
      refine Bool.and_eq_true .. |>.mpr ⟨?_, by decide⟩
      rw [List.all_eq_true]
      exact fun c hc => benign_of_ident (hbid c hc)
    · simp only [List.length_cons, List.length_append, List.length_cons]
      omega

theorem buildThenBracket_pd {r : List Char} {k : Nat} (h : buildThenBracket r = some k)
    (ds : List Char) : buildThenBracket (r.take k ++ ds) = some k := by
  rcases buildThenBracket_inv h with ⟨t, rfl, rfl⟩ | ⟨b, t, rfl, hbne, hbid, rfl⟩
  · rfl
  · have htake : ('+' :: (b ++ ']' :: t)).take (1 + b.length + 1) =
        '+' :: (b ++ [']']) := by
      rw [show 1 + b.length + 1 = (b.length + 1) + 1 from by omega, List.take_succ_cons,
        List.take_append, List.take_succ_cons, List.take_zero]
    rw [htake, List.cons_append, List.append_assoc, List.singleton_append]
    exact buildThenBracket_run hbne hbid

/-- Inversion for `afterTripleLen`. -/
theorem afterTripleLen_inv {r : List Char} {k : Nat}
    (h : afterTripleLen r = some k) :
    (∃ t, r = ']' :: t ∧ k = 1) ∨
    (∃ rest bn, r = '-' :: rest ∧ preOk (preChunk rest) = true ∧
      buildThenBracket (rest.dropWhile preChar) = some bn ∧
      k = 1 + (preChunk rest).length + bn) ∨
    (∃ r2, r = '+' :: r2 ∧ buildThenBracket ('+' :: r2) = some k) := by
  cases r with
  | nil => exact Option.noConfusion h
  | cons c r2 =>
    by_cases hc : c = ']'
    · subst hc
      have h1 : some 1 = some k := h
      rw [Option.some_inj] at h1
      exact Or.inl ⟨r2, rfl, h1.symm⟩
    · by_cases hc2 : c = '-'
      · subst hc2
        have hred : afterTripleLen ('-' :: r2) =
            if preOk (preChunk r2) = true then
              (buildThenBracket (r2.dropWhile preChar)).map (1 + (preChunk r2).length + ·)
            else none := rfl
        rw [hred] at h
        split at h
        · next hpre =>
          rcases hbtb : buildThenBracket (r2.dropWhile preChar) with _ | bn
          · rw [hbtb] at h
            exact Option.noConfusion h
          · rw [hbtb] at h
            simp only [Option.map_some'] at h
            rw [Option.some_inj] at h
            exact Or.inr (Or.inl ⟨r2, bn, rfl, hpre, hbtb, h.symm⟩)
        · exact Option.noConfusion h
      · by_cases hc3 : c = '+'
        · subst hc3
          exact Or.inr (Or.inr ⟨r2, rfl, h⟩)
        · exfalso
          have hred : afterTripleLen (c :: r2) = none := by
            unfold afterTripleLen
            split
            · next heq =>
              injection heq with hh _
              exact absurd hh hc
            · next heq =>
              injection heq with hh _
              exact absurd hh hc2
            · next heq =>
              injection heq with hh _
              exact absurd hh hc3
            · rfl
          rw [hred] at h
          exact Option.noConfusion h

theorem preChunk_chars (l : List Char) : ∀ c ∈ preChunk l, preChar c = true :=
  fun _ hc => mem_takeWhile hc

theorem buildThenBracket_ne_nil {r : List Char} {k : Nat}
    (h : buildThenBracket r = some k) : r ≠ [] := by
  rcases buildThenBracket_inv h with ⟨t, rfl, _⟩ | ⟨b, t, rfl, _, _, _⟩ <;>
    exact List.cons_ne_nil _ _

theorem headFails_take {p : Char → Bool} {l : List Char} (h : headFails p l)
    {n : Nat} (hn : 1 ≤ n) (hl : l ≠ []) (ds : List Char) :
    headFails p (l.take n ++ ds) := by
  rcases l with _ | ⟨c, r⟩
  · exact absurd rfl hl
  · rw [show n = (n - 1) + 1 from by omega, List.take_succ_cons]
    exact h

theorem afterTripleLen_chars {r : List Char} {k : Nat}
    (h : afterTripleLen r = some k) :
    (r.take k).all benign = true ∧ 1 ≤ k ∧ k ≤ r.length ∧
      headFails Char.isDigit r := by
  rcases afterTripleLen_inv h with ⟨t, rfl, rfl⟩ | ⟨rest, bn, rfl, hpre, hbtb, rfl⟩ |
    ⟨r2, rfl, hbtb⟩
  · have ht1 : ((']' :: t : List Char)).take 1 = [']'] := rfl
    rw [ht1]
    exact ⟨by decide, Nat.le_refl 1, by simp,
      (by decide : Char.isDigit ']' = false)⟩
  · obtain ⟨hball, hb1, hble⟩ := buildThenBracket_chars hbtb
    have key : ∀ p dw : List Char, rest = p ++ dw → (∀ c ∈ p, preChar c = true) →
        (dw.take bn).all benign = true → bn ≤ dw.length →
        (('-' :: rest).take (1 + p.length + bn)).all benign = true ∧
        1 + p.length + bn ≤ ('-' :: rest).length := by
      intro p dw hrest hpc hdal hdle
      subst hrest
      constructor
      · rw [show 1 + p.length + bn = (p.length + bn) + 1 from by omega,
          List.take_succ_cons, List.take_append, List.all_cons]
        refine Bool.and_eq_true .. |>.mpr ⟨by decide, ?_⟩
        rw [List.all_append]
        refine Bool.and_eq_true .. |>.mpr ⟨?_, hdal⟩
        rw [List.all_eq_true]
        exact fun c hc => benign_of_preChar (hpc c hc)
      · simp only [List.length_cons, List.length_append]
        omega
    obtain ⟨h1, h2⟩ := key (preChunk rest) (rest.dropWhile preChar)
      (List.takeWhile_append_dropWhile ..).symm (preChunk_chars rest) hball hble
    exact ⟨h1, by omega, h2, (by decide : Char.isDigit '-' = false)⟩
  · obtain ⟨hball, hb1, hble⟩ := buildThenBracket_chars hbtb
    exact ⟨hball, hb1, hble, (by decide : Char.isDigit '+' = false)⟩

theorem afterTripleLen_pd {r : List Char} {k : Nat} (h : afterTripleLen r = some k)
    (ds : List Char) : afterTripleLen (r.take k ++ ds) = some k := by
  rcases afterTripleLen_inv h with ⟨t, rfl, rfl⟩ | ⟨rest, bn, rfl, hpre, hbtb, rfl⟩ |
    ⟨r2, rfl, hbtb⟩
  · rfl
  · obtain ⟨hball, hb1, hble⟩ := buildThenBracket_chars hbtb
    have key : ∀ p dw : List Char, rest = p ++ dw → (∀ c ∈ p, preChar c = true) →
        preOk p = true → headFails preChar dw → dw ≠ [] →
        buildThenBracket dw = some bn →
        afterTripleLen (('-' :: rest).take (1 + p.length + bn) ++ ds) =
          some (1 + p.length + bn) := by
      intro p dw hrest hpc hpok hhf hdne hbt
      subst hrest
      have htake : ('-' :: (p ++ dw)).take (1 + p.length + bn) =
          '-' :: (p ++ dw.take bn) := by
        rw [show 1 + p.length + bn = (p.length + bn) + 1 from by omega,
          List.take_succ_cons, List.take_append]
      rw [htake, List.cons_append, List.append_assoc]
      have hhf2 : headFails preChar (dw.take bn ++ ds) := headFails_take hhf hb1 hdne ds
      have hred : afterTripleLen ('-' :: (p ++ (dw.take bn ++ ds))) =
          if preOk (preChunk (p ++ (dw.take bn ++ ds))) = true then
            (buildThenBracket ((p ++ (dw.take bn ++ ds)).dropWhile preChar)).map
              (1 + (preChunk (p ++ (dw.take bn ++ ds))).length + ·)
          else none := rfl
      rw [hred, show preChunk (p ++ (dw.take bn ++ ds)) = p from
          takeWhile_run hpc hhf2, dropWhile_run hpc hhf2, if_pos hpok,
        buildThenBracket_pd hbt ds]
      rfl
    exact key (preChunk rest) (rest.dropWhile preChar)
      (List.takeWhile_append_dropWhile ..).symm (preChunk_chars rest) hpre
      (headFails_dropWhile preChar rest) (buildThenBracket_ne_nil hbtb) hbtb
  · obtain ⟨hball, hb1, hble⟩ := buildThenBracket_chars hbtb
    have hpd := buildThenBracket_pd hbtb ds
    have htk : ('+' :: r2).take k = '+' :: r2.take (k - 1) := by
      conv_lhs => rw [show k = (k - 1) + 1 from by omega]
      rw [List.take_succ_cons]
    rw [htk, List.cons_append] at hpd
    rw [htk, List.cons_append]
    exact hpd

theorem afterTripleLen_ne_nil {r : List Char} {k : Nat}
    (h : afterTripleLen r = some k) : r ≠ [] := by
  rcases afterTripleLen_inv h with ⟨t, rfl, _⟩ | ⟨rest, bn, rfl, _, _, _⟩ |
    ⟨r2, rfl, _⟩ <;> exact List.cons_ne_nil _ _

theorem take_parts (d1 d2 d3 R : List Char) (n : Nat) :
    (d1 ++ '.' :: (d2 ++ '.' :: (d3 ++ R))).take
        (d1.length + 1 + d2.length + 1 + d3.length + n) =
      d1 ++ '.' :: (d2 ++ '.' :: (d3 ++ R.take n)) := by
  rw [show d1.length + 1 + d2.length + 1 + d3.length + n =
      d1.length + ((d2.length + 1 + d3.length + n) + 1) from by omega,
    List.take_append, List.take_succ_cons,
    show d2.length + 1 + d3.length + n = d2.length + ((d3.length + n) + 1) from by omega,
    List.take_append, List.take_succ_cons, List.take_append]

theorem bracketLen_inv {cs : List Char} {bn : Nat} (h : bracketLen cs = some bn) :
    ∃ d1 d2 d3 rest an, semVerParts cs = some (d1, d2, d3, rest) ∧
      afterTripleLen rest = some an ∧
      bn = d1.length + 1 + d2.length + 1 + d3.length + an := by
  unfold bracketLen at h
  split at h
  · next d1 d2 d3 rest heq =>
    rcases hat : afterTripleLen rest with _ | an
    · rw [hat] at h
      exact Option.noConfusion h
    · rw [hat] at h
      simp only [Option.map_some'] at h
      rw [Option.some_inj] at h
      exact ⟨d1, d2, d3, rest, an, heq, hat, h.symm⟩
  · exact Option.noConfusion h

theorem all_benign_parts {d1 d2 d3 T : List Char}
    (hd1 : ∀ c ∈ d1, c.isDigit = true) (hd2 : ∀ c ∈ d2, c.isDigit = true)
    (hd3 : ∀ c ∈ d3, c.isDigit = true) (hT : T.all benign = true) :
    (d1 ++ '.' :: (d2 ++ '.' :: (d3 ++ T))).all benign = true := by
  rw [List.all_append, List.all_cons, List.all_append, List.all_cons, List.all_append]
  have hdot : benign '.' = true := by decide
  have e1 : d1.all benign = true := by
    rw [List.all_eq_true]; exact fun c hc => benign_of_digit (hd1 c hc)
  have e2 : d2.all benign = true := by
    rw [List.all_eq_true]; exact fun c hc => benign_of_digit (hd2 c hc)
  have e3 : d3.all benign = true := by
    rw [List.all_eq_true]; exact fun c hc => benign_of_digit (hd3 c hc)
  rw [e1, e2, e3, hdot, hT]
  rfl

theorem bracketLen_chars {cs : List Char} {bn : Nat} (h : bracketLen cs = some bn) :
    (cs.take bn).all benign = true ∧ 1 ≤ bn ∧ bn ≤ cs.length := by
  obtain ⟨d1, d2, d3, rest, an, hsp, hat, rfl⟩ := bracketLen_inv h
  obtain ⟨hcs, hn1, hn2, hn3, hdd1, hdd2, hdd3, hhf⟩ := semVerParts_sound hsp
  obtain ⟨hall, h1, hle, _⟩ := afterTripleLen_chars hat
  subst hcs
  rw [take_parts]
  refine ⟨all_benign_parts hdd1 hdd2 hdd3 hall, by omega, ?_⟩
  simp only [List.length_append, List.length_cons]
  omega

theorem bracketLen_pd {cs : List Char} {bn : Nat} (h : bracketLen cs = some bn)
    (ds : List Char) : bracketLen (cs.take bn ++ ds) = some bn := by
  obtain ⟨d1, d2, d3, rest, an, hsp, hat, rfl⟩ := bracketLen_inv h
  obtain ⟨hcs, hn1, hn2, hn3, hdd1, hdd2, hdd3, hhf⟩ := semVerParts_sound hsp
  obtain ⟨hall, h1, hle, hdf⟩ := afterTripleLen_chars hat
  subst hcs
  rw [take_parts]
  have hassoc : (d1 ++ '.' :: (d2 ++ '.' :: (d3 ++ rest.take an))) ++ ds =
      d1 ++ '.' :: (d2 ++ '.' :: (d3 ++ (rest.take an ++ ds))) := by
    simp [List.append_assoc]
  rw [hassoc]
  have hsp2 : semVerParts (d1 ++ '.' :: (d2 ++ '.' :: (d3 ++ (rest.take an ++ ds)))) =
      some (d1, d2, d3, rest.take an ++ ds) :=
    semVerParts_complete ⟨rfl, hn1, hn2, hn3, hdd1, hdd2, hdd3,
      headFails_take hdf h1 (afterTripleLen_ne_nil hat) ds⟩
  unfold bracketLen
  rw [hsp2]
  show Option.map (fun x => d1.length + 1 + d2.length + 1 + d3.length + x)
      (afterTripleLen (rest.take an ++ ds)) =
    some (d1.length + 1 + d2.length + 1 + d3.length + an)
  rw [afterTripleLen_pd hat ds]
  rfl

/-- Inversion for `entryLenFrom`. -/
theorem entryLenFrom_inv {cs : List Char} {n : Nat} (h : entryLenFrom cs = some n) :
    ∃ s rest bn, cs = '#' :: '#' :: s :: '[' :: rest ∧ wsChar s = true ∧
      bracketLen rest = some bn ∧ n = 4 + bn := by
  unfold entryLenFrom at h
  split at h
  · next s rest =>
    split at h
    · next hws =>
      rcases hbl : bracketLen rest with _ | bn
      · rw [hbl] at h
        exact Option.noConfusion h
      · rw [hbl] at h
        simp only [Option.map_some'] at h
        rw [Option.some_inj] at h
        exact ⟨s, rest, bn, rfl, hws, hbl, h.symm⟩
    · exact Option.noConfusion h
  · exact Option.noConfusion h

theorem entryLenFrom_pd {cs : List Char} {n : Nat} (h : entryLenFrom cs = some n)
    (ds : List Char) : entryLenFrom (cs.take n ++ ds) = some n := by
  obtain ⟨s, rest, bn, rfl, hws, hbl, rfl⟩ := entryLenFrom_inv h
  have htake : ('#' :: '#' :: s :: '[' :: rest).take (4 + bn) =
      '#' :: '#' :: s :: '[' :: rest.take bn := by
    rw [show 4 + bn = (((bn + 1) + 1) + 1) + 1 from by omega, List.take_succ_cons,
      List.take_succ_cons, List.take_succ_cons, List.take_succ_cons]
  rw [htake]
  show entryLenFrom ('#' :: '#' :: s :: '[' :: (rest.take bn ++ ds)) = some (4 + bn)
  show (if wsChar s = true then (bracketLen (rest.take bn ++ ds)).map (4 + ·)
    else none) = some (4 + bn)
  rw [if_pos hws, bracketLen_pd hbl ds]
  rfl

theorem entryLenFrom_le {cs : List Char} {n : Nat} (h : entryLenFrom cs = some n) :
    n ≤ cs.length := by
  obtain ⟨s, rest, bn, rfl, hws, hbl, rfl⟩ := entryLenFrom_inv h
  obtain ⟨_, _, hle⟩ := bracketLen_chars hbl
  simp only [List.length_cons]
  omega

theorem entryLenFrom_transfer {u v w : List Char} {n : Nat}
    (h : entryLenFrom (u ++ v) = some n) (hn : n ≤ u.length) :
    entryLenFrom (u ++ w) = some n := by
  have hpd := entryLenFrom_pd h (u.drop n ++ w)
  rw [List.take_append_of_le_length hn, ← List.append_assoc,
    List.take_append_drop] at hpd
  exact hpd

/-- A heading match that starts inside `u` cannot reach across the boundary
into an appended block that itself starts with `"##"`. -/
theorem straddle_hash {u w : List Char} {n : Nat}
    (h : entryLenFrom (u ++ '#' :: '#' :: w) = some n) (hu : u ≠ []) :
    n ≤ u.length := by
  by_contra hgt
  push_neg at hgt
  obtain ⟨s, rest, bn, hcs, hws, hbl, hn⟩ := entryLenFrom_inv h
  rcases u with _ | ⟨a, _ | ⟨b, _ | ⟨c, _ | ⟨d, u'⟩⟩⟩⟩
  · exact absurd rfl hu
  · injection hcs with h1 hcs
    injection hcs with h2 hcs
    injection hcs with h3 hcs
    subst h3
    exact absurd hws (by decide)
  · injection hcs with h1 hcs
    injection hcs with h2 hcs
    injection hcs with h3 hcs
    subst h3
    exact absurd hws (by decide)
  · injection hcs with h1 hcs
    injection hcs with h2 hcs
    injection hcs with h3 hcs
    injection hcs with h4 hcs
    exact absurd h4 (by decide)
  · injection hcs with h1 hcs
    injection hcs with h2 hcs
    injection hcs with h3 hcs
    injection hcs with h4 hcs
    rw [List.append_eq] at hcs
    obtain ⟨hall, _, _⟩ := bracketLen_chars hbl
    have hm4 : u'.length < bn := by
      subst hn
      simp only [List.length_cons] at hgt
      omega
    have hch : rest[u'.length]? = some '#' := by
      rw [← hcs, List.getElem?_append_right (Nat.le_refl _), Nat.sub_self]
      rfl
    have htk : (rest.take bn)[u'.length]? = some '#' := by
      rw [List.getElem?_take_of_lt hm4, hch]
    have hmem := mem_of_getElem htk
    rw [List.all_eq_true] at hall
    exact absurd (hall '#' hmem) (by decide)

/-- A heading match that starts inside `u` cannot reach across a newline
separator followed by a block starting with `"##"`. -/
theorem straddle_newline {u w : List Char} {n : Nat}
    (h : entryLenFrom (u ++ '\n' :: '#' :: '#' :: w) = some n) (hu : u ≠ []) :
    n ≤ u.length := by
  by_contra hgt
  push_neg at hgt
  obtain ⟨s, rest, bn, hcs, hws, hbl, hn⟩ := entryLenFrom_inv h
  rcases u with _ | ⟨a, _ | ⟨b, _ | ⟨c, _ | ⟨d, u'⟩⟩⟩⟩
  · exact absurd rfl hu
  · injection hcs with h1 hcs
    injection hcs with h2 hcs
    exact absurd h2 (by decide)
  · injection hcs with h1 hcs
    injection hcs with h2 hcs
    injection hcs with h3 hcs
    injection hcs with h4 hcs
    exact absurd h4 (by decide)
  · injection hcs with h1 hcs
    injection hcs with h2 hcs
    injection hcs with h3 hcs
    injection hcs with h4 hcs
    exact absurd h4 (by decide)
  · injection hcs with h1 hcs
    injection hcs with h2 hcs
    injection hcs with h3 hcs
    injection hcs with h4 hcs
    rw [List.append_eq] at hcs
    obtain ⟨hall, _, _⟩ := bracketLen_chars hbl
    have hm4 : u'.length < bn := by
      subst hn
      simp only [List.length_cons] at hgt
      omega
    have hch : rest[u'.length]? = some '\n' := by
      rw [← hcs, List.getElem?_append_right (Nat.le_refl _), Nat.sub_self]
      rfl
    have htk : (rest.take bn)[u'.length]? = some '\n' := by
      rw [List.getElem?_take_of_lt hm4, hch]
    have hmem := mem_of_getElem htk
    rw [List.all_eq_true] at hall
    exact absurd (hall '\n' hmem) (by decide)

theorem searchEntryGo_ge {cs : List Char} : ∀ {i : Nat} {b : Bool} {j : Nat},
    searchEntryGo cs i b = some j → i ≤ j := by
  induction cs with
  | nil =>
    intro i b j h
    unfold searchEntryGo at h
    split at h
    · rw [Option.some_inj] at h
      omega
    · exact Option.noConfusion h
  | cons c rest ih =>
    intro i b j h
    unfold searchEntryGo at h
    split at h
    · rw [Option.some_inj] at h
      omega
    · have h2 : searchEntryGo rest (i + 1) (lineTerm c) = some j := h
      have := ih h2
      omega

/-- Replacing the tail right after the first match position by a block that
starts with `"##"` and matches the heading pattern keeps the first match
position unchanged. -/
theorem searchEntryGo_transfer {w tail : List Char} {m : Nat}
    (hm : entryLenFrom ('#' :: '#' :: w) = some m) :
    ∀ (pre : List Char) (i : Nat) (b : Bool),
      searchEntryGo (pre ++ tail) i b = some (i + pre.length) →
      searchEntryGo (pre ++ '#' :: '#' :: w) i b = some (i + pre.length) := by
  intro pre
  induction pre with
  | nil =>
    intro i b h
    rw [List.nil_append] at h ⊢
    have hb : b = true := by
      by_contra hb
      rw [Bool.not_eq_true] at hb
      subst hb
      unfold searchEntryGo at h
      rw [if_neg (by simp)] at h
      cases tail with
      | nil => exact Option.noConfusion h
      | cons c r =>
        have h2 : searchEntryGo r (i + 1) (lineTerm c) = some (i + 0) := h
        have := searchEntryGo_ge h2
        omega
    subst hb
    unfold searchEntryGo
    rw [if_pos (by rw [hm]; rfl)]
    simp
  | cons c pre' ih =>
    intro i b h
    have hnots : ¬ (b && (entryLenFrom ((c :: pre') ++ tail)).isSome) = true := by
      intro habs
      have hcopy := h
      unfold searchEntryGo at hcopy
      rw [List.cons_append] at hcopy
      rw [if_pos (by rw [← List.cons_append]; exact habs)] at hcopy
      rw [Option.some_inj] at hcopy
      simp only [List.length_cons] at hcopy
      omega
    have hnots' : ¬ (b && (entryLenFrom ((c :: pre') ++ '#' :: '#' :: w)).isSome) =
        true := by
      intro habs
      rw [Bool.and_eq_true] at habs
      obtain ⟨hb, hsome⟩ := habs
      rw [Option.isSome_iff_exists] at hsome
      obtain ⟨n, hn⟩ := hsome
      have hle := straddle_hash hn (List.cons_ne_nil c pre')
      have htr := @entryLenFrom_transfer (c :: pre') ('#' :: '#' :: w) tail n hn hle
      exact hnots (by rw [Bool.and_eq_true]; exact ⟨hb, by rw [htr]; rfl⟩)
    have h2 : searchEntryGo (pre' ++ tail) (i + 1) (lineTerm c) =
        some ((i + 1) + pre'.length) := by
      have hcopy := h
      unfold searchEntryGo at hcopy
      rw [List.cons_append] at hcopy
      rw [if_neg (by rw [← List.cons_append]; exact hnots)] at hcopy
      have h3 : searchEntryGo (pre' ++ tail) (i + 1) (lineTerm c) =
          some (i + (c :: pre').length) := hcopy
      rw [show i + (c :: pre').length = (i + 1) + pre'.length from by
        simp only [List.length_cons]; omega] at h3
      exact h3
    have h3 := ih (i + 1) (lineTerm c) h2
    unfold searchEntryGo
    rw [List.cons_append]
    rw [if_neg (by rw [← List.cons_append]; exact hnots')]
    show searchEntryGo (pre' ++ '#' :: '#' :: w) (i + 1) (lineTerm c) =
      some (i + (c :: pre').length)
    rw [show i + (c :: pre').length = (i + 1) + pre'.length from by
      simp only [List.length_cons]; omega]
    exact h3

/-- If a document has no heading match at all, appending a newline and a
matching block that starts with `"##"` makes the first match land exactly at
the start of the appended block. -/
theorem searchEntryGo_append_none {w : List Char} {m : Nat}
    (hm : entryLenFrom ('#' :: '#' :: w) = some m) :
    ∀ (pre : List Char) (i : Nat) (b : Bool),
      searchEntryGo pre i b = none →
      searchEntryGo (pre ++ '\n' :: '#' :: '#' :: w) i b =
        some (i + pre.length + 1) := by
  intro pre
  induction pre with
  | nil =>
    intro i b h
    rw [List.nil_append]
    have hnone : entryLenFrom ('\n' :: '#' :: '#' :: w) = none := rfl
    unfold searchEntryGo
    rw [if_neg (by rw [hnone]; simp)]
    show searchEntryGo ('#' :: '#' :: w) (i + 1) (lineTerm '\n') =
      some (i + 0 + 1)
    unfold searchEntryGo
    rw [if_pos (by rw [hm]; rfl)]
  | cons c pre' ih =>
    intro i b h
    have hno : ¬ (b && (entryLenFrom (c :: pre')).isSome) = true := by
      intro habs
      have hcopy := h
      unfold searchEntryGo at hcopy
      rw [if_pos habs] at hcopy
      exact Option.noConfusion hcopy
    have h2 : searchEntryGo pre' (i + 1) (lineTerm c) = none := by
      have hcopy := h
      unfold searchEntryGo at hcopy
      rw [if_neg hno] at hcopy
      exact hcopy
    have hno' : ¬ (b && (entryLenFrom ((c :: pre') ++
        '\n' :: '#' :: '#' :: w)).isSome) = true := by
      intro habs
      rw [Bool.and_eq_true] at habs
      obtain ⟨hb, hsome⟩ := habs
      rw [Option.isSome_iff_exists] at hsome
      obtain ⟨n, hn⟩ := hsome
      have hle := straddle_newline hn (List.cons_ne_nil c pre')
      have htr := @entryLenFrom_transfer (c :: pre') ('\n' :: '#' :: '#' :: w) [] n hn hle
      rw [List.append_nil] at htr
      exact hno (by rw [Bool.and_eq_true]; exact ⟨hb, by rw [htr]; rfl⟩)
    unfold searchEntryGo
    rw [List.cons_append]
    rw [if_neg (by rw [← List.cons_append]; exact hno')]
    show searchEntryGo (pre' ++ '\n' :: '#' :: '#' :: w) (i + 1) (lineTerm c) =
      some (i + (c :: pre').length + 1)
    rw [show i + (c :: pre').length + 1 = (i + 1) + pre'.length + 1 from by
      simp only [List.length_cons]; omega]
    exact ih (i + 1) (lineTerm c) h2

theorem mkNewEntry_data (version date msg : String) :
    (mkNewEntry version date msg).data =
      '#' :: '#' :: ' ' :: '[' :: (version.data ++ ']' :: ' ' :: '-' :: ' ' ::
        (date.data ++ '\n' :: '\n' :: (msg.data ++ ['\n']))) := by
  have l1 : ("## [" : String).data = ['#', '#', ' ', '['] := rfl
  have l2 : ("] - " : String).data = [']', ' ', '-', ' '] := rfl
  have l3 : ("\n\n" : String).data = ['\n', '\n'] := rfl
  have l4 : ("\n" : String).data = ['\n'] := rfl
  simp [mkNewEntry, String.data_append, l1, l2, l3, l4]

/-- Inversion for `buildThenEnd`. -/
theorem buildThenEnd_inv {dw : List Char} (h : buildThenEnd dw = true) :
    dw = [] ∨ ∃ b, dw = '+' :: b ∧ b ≠ [] ∧ ∀ c ∈ b, identChar c = true := by
  cases dw with
  | nil => exact Or.inl rfl
  | cons c r =>
    obtain ⟨hc, hr⟩ := buildThenEnd_cons h
    subst hc
    exact Or.inr ⟨r, rfl, hr⟩

/-- A valid `reSemVerFormat` suffix, followed by `]`, is exactly what the
heading pattern consumes after the numeric triple. -/
theorem afterTriple_of_suffixOk {s : List Char} (hs : suffixOk s = true)
    (t : List Char) : afterTripleLen (s ++ ']' :: t) = some (s.length + 1) := by
  cases s with
  | nil => rfl
  | cons c rest =>
    rcases suffixOk_cons_head hs with hc | hc
    · subst hc
      have hval : (preOk (preChunk rest) && buildThenEnd (rest.dropWhile preChar)) =
          true := hs
      rw [Bool.and_eq_true] at hval
      obtain ⟨hpre, hbuild⟩ := hval
      have key : ∀ p dw : List Char, rest = p ++ dw → (∀ x ∈ p, preChar x = true) →
          preOk p = true → headFails preChar dw → buildThenEnd dw = true →
          afterTripleLen (('-' :: rest) ++ ']' :: t) =
            some (('-' :: rest).length + 1) := by
        intro p dw hrest hpc hpok hhf hbe
        subst hrest
        rw [List.cons_append, List.append_assoc]
        have hfail : headFails preChar (dw ++ ']' :: t) := by
          cases dw with
          | nil => exact (by decide : preChar ']' = false)
          | cons c0 r0 => exact hhf
        have hred : afterTripleLen ('-' :: (p ++ (dw ++ ']' :: t))) =
            if preOk (preChunk (p ++ (dw ++ ']' :: t))) = true then
              (buildThenBracket ((p ++ (dw ++ ']' :: t)).dropWhile preChar)).map
                (1 + (preChunk (p ++ (dw ++ ']' :: t))).length + ·)
            else none := rfl
        have hpc2 : preChunk (p ++ (dw ++ ']' :: t)) = p := takeWhile_run hpc hfail
        rw [hred, hpc2, dropWhile_run hpc hfail, if_pos hpok]
        rcases buildThenEnd_inv hbe with rfl | ⟨b, rfl, hbne, hbid⟩
        · show Option.map (1 + p.length + ·) (buildThenBracket (']' :: t)) = _
          rw [show buildThenBracket (']' :: t) = some 1 from rfl]
          simp only [Option.map_some', Option.some_inj, List.length_cons,
            List.length_append, List.length_nil]
          omega
        · rw [List.cons_append, buildThenBracket_run hbne hbid]
          simp only [Option.map_some', Option.some_inj, List.length_cons,
            List.length_append]
          omega
      exact key (preChunk rest) (rest.dropWhile preChar)
        (List.takeWhile_append_dropWhile ..).symm (preChunk_chars rest) hpre
        (headFails_dropWhile preChar rest) hbuild
    · subst hc
      have hval : (!rest.isEmpty && rest.all identChar) = true := hs
      obtain ⟨hne, hid⟩ := build_and hval
      rw [List.cons_append]
      show buildThenBracket ('+' :: (rest ++ ']' :: t)) = some (rest.length + 1 + 1)
      rw [buildThenBracket_run hne hid]
      rw [Option.some_inj]
      omega

theorem headFails_suffix_append {vrest : List Char} (hs : suffixOk vrest = true)
    {x : List Char} (hx : headFails Char.isDigit x) :
    headFails Char.isDigit (vrest ++ x) := by
  cases vrest with
  | nil => exact hx
  | cons c r =>
    show Char.isDigit c = false
    exact suffixOk_headFails hs

/-- The freshly formatted block heads with a heading-pattern match whenever
the version text is grammar-valid. -/
theorem entry_match_block {version date msg : String} (hv : isSemVer version = true)
    (z : List Char) :
    ∃ n, entryLenFrom ((mkNewEntry version date msg).data ++ z) = some n := by
  obtain ⟨d1, d2, d3, vrest, hshape, hsuf⟩ := isSemVerL_iff.mp hv
  obtain ⟨hcs, hn1, hn2, hn3, hd1, hd2, hd3, _⟩ := id hshape
  rw [mkNewEntry_data]
  rw [List.cons_append, List.cons_append, List.cons_append, List.cons_append,
    List.append_assoc]
  set T := ']' :: ' ' :: '-' :: ' ' ::
    (date.data ++ '\n' :: '\n' :: (msg.data ++ ['\n'])) ++ z with hT
  have hTdef : version.data ++ T =
      d1 ++ '.' :: (d2 ++ '.' :: (d3 ++ (vrest ++ T))) := by
    rw [hcs]
    simp [List.append_assoc]
  have hsp : semVerParts (version.data ++ T) = some (d1, d2, d3, vrest ++ T) := by
    rw [hTdef]
    exact semVerParts_complete ⟨rfl, hn1, hn2, hn3, hd1, hd2, hd3,
      headFails_suffix_append hsuf (by rw [hT]; exact (by decide :
        Char.isDigit ']' = false))⟩
  have hat : afterTripleLen (vrest ++ T) = some (vrest.length + 1) := by
    rw [hT]
    exact afterTriple_of_suffixOk hsuf _
  refine ⟨4 + (d1.length + 1 + d2.length + 1 + d3.length + (vrest.length + 1)), ?_⟩
  show (if wsChar ' ' = true then (bracketLen (version.data ++ T)).map (4 + ·)
    else none) = _
  rw [if_pos (by decide)]
  unfold bracketLen
  rw [hsp]
  show Option.map (4 + ·) (Option.map
      (fun x => d1.length + 1 + d2.length + 1 + d3.length + x)
      (afterTripleLen (vrest ++ T))) = _
  rw [hat]
  rfl

theorem updateChangeLog_data_found {doc : String} (version date msg : String) {i : Nat}
    (h : searchEntryL doc.data = some i) :
    (updateChangeLog doc version date msg).data =
      doc.data.take i ++ (mkNewEntry version date msg).data ++
        '\n' :: doc.data.drop i := by
  unfold updateChangeLog
  rw [h]

theorem updateChangeLog_data_none {doc : String} (version date msg : String)
    (h : searchEntryL doc.data = none) :
    (updateChangeLog doc version date msg).data =
      doc.data ++ '\n' :: (mkNewEntry version date msg).data := by
  unfold updateChangeLog
  rw [h]

theorem searchEntryGo_le {cs : List Char} : ∀ {i : Nat} {b : Bool} {j : Nat},
    searchEntryGo cs i b = some j → j ≤ i + cs.length := by
  induction cs with
  | nil =>
    intro i b j h
    unfold searchEntryGo at h
    split at h
    · rw [Option.some_inj] at h
      omega
    · exact Option.noConfusion h
  | cons c rest ih =>
    intro i b j h
    unfold searchEntryGo at h
    split at h
    · rw [Option.some_inj] at h
      simp only [List.length_cons]
      omega
    · have h2 : searchEntryGo rest (i + 1) (lineTerm c) = some j := h
      have := ih h2
      simp only [List.length_cons]
      omega

theorem countOcc_append_left (pat : List Char) :
    ∀ x y : List Char, countOcc pat y ≤ countOcc pat (x ++ y) := by
  intro x
  induction x with
  | nil => intro y; exact Nat.le_refl _
  | cons c x' ih =>
    intro y
    show countOcc pat y ≤
      (if leadsWith pat (c :: (x' ++ y)) then 1 else 0) + countOcc pat (x' ++ y)
    have := ih y
    split <;> omega

theorem countOcc_head_pos {pat z : List Char} (hne : pat ≠ []) :
    1 + countOcc pat z ≤ countOcc pat (pat ++ z) := by
  rcases pat with _ | ⟨p0, p'⟩
  · exact absurd rfl hne
  · show 1 + countOcc (p0 :: p') z ≤
      (if leadsWith (p0 :: p') (p0 :: (p' ++ z)) then 1 else 0) +
        countOcc (p0 :: p') (p' ++ z)
    have hlw : leadsWith (p0 :: p') (p0 :: (p' ++ z)) = true := by
      show (p0 = p0 && leadsWith p' (p' ++ z)) = true
      rw [leadsWith_append_self]
      simp
    rw [hlw]
    have := countOcc_append_left (p0 :: p') p' z
    simp only [if_true]
    omega

theorem two_copies_countOcc {pat : List Char} (a b : List Char) (hne : pat ≠ []) :
    2 ≤ countOcc pat (a ++ (pat ++ '\n' :: (pat ++ b))) := by
  have h1 : 1 ≤ countOcc pat ('\n' :: (pat ++ b)) := by
    have hp : 1 + countOcc pat b ≤ countOcc pat (pat ++ b) := countOcc_head_pos hne
    have : countOcc pat (pat ++ b) ≤ countOcc pat ('\n' :: (pat ++ b)) :=
      countOcc_append_left pat ['\n'] (pat ++ b)
    omega
  have h2 : 1 + countOcc pat ('\n' :: (pat ++ b)) ≤
      countOcc pat (pat ++ '\n' :: (pat ++ b)) := countOcc_head_pos hne
  have h3 := countOcc_append_left pat a (pat ++ '\n' :: (pat ++ b))
  omega

theorem mkNewEntry_ne_nil (version date msg : String) :
    (mkNewEntry version date msg).data ≠ [] := by
  rw [mkNewEntry_data]
  exact List.cons_ne_nil _ _

/-- Claim C7 (amended): when the version text is grammar-valid (so the new
block carries a recognizable entry heading), applying `insertEntry` twice
with identical arguments always yields a document holding two duplicate
copies of the new block, separated by the spliced newline — the second call
re-inserts instead of detecting the first copy. -/
theorem claim_C7_double_insert (doc version date msg : String)
    (hv : isSemVer version = true) :
    ∃ a b, (updateChangeLog (updateChangeLog doc version date msg)
        version date msg).data =
      a ++ ((mkNewEntry version date msg).data ++
        '\n' :: ((mkNewEntry version date msg).data ++ b)) ∧
      2 ≤ countOcc (mkNewEntry version date msg).data
        (updateChangeLog (updateChangeLog doc version date msg)
          version date msg).data := by
  obtain ⟨w0, hw0⟩ : ∃ w0, (mkNewEntry version date msg).data = '#' :: '#' :: w0 :=
    ⟨_, by rw [mkNewEntry_data]⟩
  rcases hsearch : searchEntryL doc.data with _ | i
  · -- no heading in the original document
    have hupd1 := updateChangeLog_data_none version date msg hsearch
    obtain ⟨n0, hn0⟩ := entry_match_block hv []
    rw [List.append_nil, hw0] at hn0
    have hgo : searchEntryGo doc.data 0 true = none := hsearch
    have hsearch2 : searchEntryL (updateChangeLog doc version date msg).data =
        some (doc.data.length + 1) := by
      show searchEntryGo (updateChangeLog doc version date msg).data 0 true =
        some (doc.data.length + 1)
      rw [hupd1, hw0]
      have := searchEntryGo_append_none hn0 doc.data 0 true hgo
      simpa using this
    have hupd2 := updateChangeLog_data_found version date msg hsearch2
    rw [hupd1] at hupd2
    have htake : (doc.data ++ '\n' :: (mkNewEntry version date msg).data).take
        (doc.data.length + 1) = doc.data ++ ['\n'] := by
      rw [List.take_append, List.take_succ_cons, List.take_zero]
    have hdrop : (doc.data ++ '\n' :: (mkNewEntry version date msg).data).drop
        (doc.data.length + 1) = (mkNewEntry version date msg).data := by
      rw [List.drop_append, List.drop_succ_cons, List.drop_zero]
    rw [htake, hdrop] at hupd2
    refine ⟨doc.data ++ ['\n'], [], ?_, ?_⟩
    · rw [hupd2]
      simp [List.append_assoc]
    · rw [hupd2, show (doc.data ++ ['\n']) ++ (mkNewEntry version date msg).data ++
        '\n' :: (mkNewEntry version date msg).data = (doc.data ++ ['\n']) ++
        ((mkNewEntry version date msg).data ++
          '\n' :: ((mkNewEntry version date msg).data ++ [])) from by
        simp [List.append_assoc]]
      exact two_copies_countOcc _ _ (mkNewEntry_ne_nil version date msg)
  · -- first heading at offset i
    have hupd1 := updateChangeLog_data_found version date msg hsearch
    have hgo : searchEntryGo doc.data 0 true = some i := hsearch
    have hile : i ≤ doc.data.length := by
      have := searchEntryGo_le hgo
      omega
    have hlenpre : (doc.data.take i).length = i := by
      rw [List.length_take]
      omega
    obtain ⟨n0, hn0⟩ := entry_match_block hv ('\n' :: doc.data.drop i)
    rw [hw0, List.cons_append, List.cons_append] at hn0
    have hsplit : doc.data = doc.data.take i ++ doc.data.drop i :=
      (List.take_append_drop ..).symm
    have hgo2 : searchEntryGo (doc.data.take i ++ doc.data.drop i) 0 true =
        some (0 + (doc.data.take i).length) := by
      rw [← hsplit, hlenpre]
      simpa using hgo
    have htrans := searchEntryGo_transfer hn0 (doc.data.take i) 0 true hgo2
    have hsearch2 : searchEntryL (updateChangeLog doc version date msg).data =
        some i := by
      show searchEntryGo (updateChangeLog doc version date msg).data 0 true = some i
      rw [hupd1, hw0]
      rw [show (0 : Nat) + (doc.data.take i).length = i from by rw [hlenpre]; omega]
        at htrans
      rw [show ('#' :: '#' :: (w0 ++ '\n' :: List.drop i doc.data) : List Char) =
          ('#' :: '#' :: w0) ++ ('\n' :: List.drop i doc.data) from by simp,
        ← List.append_assoc] at htrans
      exact htrans
    have hupd2 := updateChangeLog_data_found version date msg hsearch2
    rw [hupd1] at hupd2
    have htake : (doc.data.take i ++ (mkNewEntry version date msg).data ++
        '\n' :: doc.data.drop i).take i = doc.data.take i := by
      rw [List.append_assoc, List.take_left' hlenpre]
    have hdrop : (doc.data.take i ++ (mkNewEntry version date msg).data ++
        '\n' :: doc.data.drop i).drop i = (mkNewEntry version date msg).data ++
        '\n' :: doc.data.drop i := by
      rw [List.append_assoc, List.drop_left' hlenpre]
    rw [htake, hdrop] at hupd2
    refine ⟨doc.data.take i, '\n' :: doc.data.drop i, ?_, ?_⟩
    · rw [hupd2]
      simp [List.append_assoc]
    · rw [hupd2, show doc.data.take i ++ (mkNewEntry version date msg).data ++
        '\n' :: ((mkNewEntry version date msg).data ++ '\n' :: doc.data.drop i) =
        doc.data.take i ++ ((mkNewEntry version date msg).data ++
          '\n' :: ((mkNewEntry version date msg).data ++ '\n' :: doc.data.drop i))
        from by simp [List.append_assoc]]
      exact two_copies_countOcc _ _ (mkNewEntry_ne_nil version date msg)

theorem claim_C7_witness :
    ∃ a b, (updateChangeLog (updateChangeLog "" "1.0.0" "01-01-2024" "* x")
        "1.0.0" "01-01-2024" "* x").data =
      a ++ ((mkNewEntry "1.0.0" "01-01-2024" "* x").data ++
        '\n' :: ((mkNewEntry "1.0.0" "01-01-2024" "* x").data ++ b)) ∧
      2 ≤ countOcc (mkNewEntry "1.0.0" "01-01-2024" "* x").data
        (updateChangeLog (updateChangeLog "" "1.0.0" "01-01-2024" "* x")
          "1.0.0" "01-01-2024" "* x").data :=
  claim_C7_double_insert "" "1.0.0" "01-01-2024" "* x" (by decide)

/-- Claim C7 counterexample: duplication is NOT produced for every input.
With version `"x"` (whose heading is not a parseable entry) and a body that
itself contains an entry heading, the second insertion splits the first copy
apart, and the doubled document contains the new block exactly once. -/
theorem claim_C7_counterexample :
    countOcc (mkNewEntry "x" "d" "## [1.0.0] oops").data
      (updateChangeLog (updateChangeLog "" "x" "d" "## [1.0.0] oops") "x" "d"
        "## [1.0.0] oops").data = 1 ∧
    ¬ (2 ≤ countOcc (mkNewEntry "x" "d" "## [1.0.0] oops").data
      (updateChangeLog (updateChangeLog "" "x" "d" "## [1.0.0] oops") "x" "d"
        "## [1.0.0] oops").data) := by
  refine ⟨by decide, fun h => ?_⟩
  rw [show countOcc (mkNewEntry "x" "d" "## [1.0.0] oops").data
      (updateChangeLog (updateChangeLog "" "x" "d" "## [1.0.0] oops") "x" "d"
        "## [1.0.0] oops").data = 1 from by decide] at h
  omega
